import Mathlib

/-!
# migmig: configuration resolution and request assembly

A shallow embedding of `migmig.go` (package `migmig`), an HTTP request builder
that merges a client's default configuration with a per-call configuration.

Go strings are byte sequences: they are modelled as lists of bytes (`Str`).
Go maps are modelled as association lists with pairwise distinct keys, and a
`range` loop over a map as a loop over an arbitrary permutation of its entries:
a method with such a loop returns the list of its possible results.

The functions of the standard library that the package calls (`net/url`, `path`,
`net/http`, `net/textproto`) are modelled after Go 1.22. The serializer
`json.Marshal` and the transport `Client.Do` are parameters.
-/

namespace migmig

/-! ## Strings -/

/-- A byte, Go's `byte`. -/
abbrev Byte := Fin 256

/-- A Go string: a sequence of bytes. -/
abbrev Str := List Byte

/-- The UTF-8 encoding of a character, as Go string literals are encoded. -/
def utf8 (c : Char) : Str :=
  let n := c.toNat
  if n < 128 then [Fin.ofNat n]
  else if n < 2048 then [Fin.ofNat (192 + n / 64), Fin.ofNat (128 + n % 64)]
  else if n < 65536 then
    [Fin.ofNat (224 + n / 4096), Fin.ofNat (128 + n / 64 % 64), Fin.ofNat (128 + n % 64)]
  else
    [Fin.ofNat (240 + n / 262144), Fin.ofNat (128 + n / 4096 % 64),
     Fin.ofNat (128 + n / 64 % 64), Fin.ofNat (128 + n % 64)]

/-- The Go string written as the literal `s`. -/
def str (s : String) : Str := s.toList.flatMap utf8

/-- The byte of an ASCII character. -/
def ch (c : Char) : Byte := Fin.ofNat c.toNat

/-! ## Errors -/

/-- Go `error` values that the package returns or propagates. -/
inductive Error where
  /-- The package variable `errMethodMissing`. -/
  | errMethodMissing
  /-- The package variable `errInvalidMethod`. -/
  | errInvalidMethod
  /-- An error of `url.Parse`: the operation's input and the reason. -/
  | urlError (rawURL : Str) (reason : String)
  /-- An error of `json.Marshal`. -/
  | jsonError (reason : String)
  /-- An error of `http.NewRequest` other than a URL error. -/
  | httpError (reason : String)
  /-- An error of the transport, `Client.Do`. -/
  | transportError (reason : String)
  deriving DecidableEq, Repr

deriving instance DecidableEq for Except

/-! ## Maps -/

/-- A Go `map[string]T`: its entries, with pairwise distinct keys. -/
abbrev GoMap (T : Type) := List (Str × T)

/-- The keys of a map. -/
def GoMap.keys {T : Type} (m : GoMap T) : List Str := m.map Prod.fst

/-- The map index expression `m[k]` with the comma-ok form: the value stored under `k`. -/
def GoMap.get {T : Type} : GoMap T → Str → Option T
  | [], _ => none
  | (k1, v1) :: rest, k => if k1 = k then some v1 else GoMap.get rest k

/-- The map assignment `m[k] = v`. -/
def GoMap.set {T : Type} : GoMap T → Str → T → GoMap T
  | [], k, v => [(k, v)]
  | (k1, v1) :: rest, k, v =>
    if k1 = k then (k1, v) :: rest else (k1, v1) :: GoMap.set rest k v

/-! ## Package `strings` -/

/-- The call `strings.Cut(s, sep)` for a one-byte separator: the text before the first
`sep`, the text after it, and whether `sep` occurs. -/
def cut (sep : Byte) : Str → Str × Str × Bool
  | [] => ([], [], false)
  | c :: rest =>
    if c = sep then ([], rest, true)
    else
      let r := cut sep rest
      (c :: r.1, r.2.1, r.2.2)

/-- The split of `s` at `strings.LastIndex(s, sep)` for a one-byte separator: the text
before the last `sep` and the text after it; `none` when `sep` does not occur. -/
def cutLast (sep : Byte) : Str → Option (Str × Str)
  | [] => none
  | c :: rest =>
    match cutLast sep rest with
    | some (a, b) => some (c :: a, b)
    | none => if c = sep then some ([], rest) else none

/-- The split of `s` at `strings.Index(s, pat)`: the text before the first occurrence of
`pat` and the text from that occurrence on; `none` when `pat` does not occur. -/
def cutAt (pat : Str) : Str → Option (Str × Str)
  | [] => if pat = [] then some ([], []) else none
  | c :: rest =>
    if pat.isPrefixOf (c :: rest) then some ([], c :: rest)
    else
      match cutAt pat rest with
      | some (a, b) => some (c :: a, b)
      | none => none

/-- Whether the byte is an ASCII upper-case letter. -/
def isUpper (c : Byte) : Bool := decide (ch 'A' ≤ c ∧ c ≤ ch 'Z')

/-- Whether the byte is an ASCII lower-case letter. -/
def isLower (c : Byte) : Bool := decide (ch 'a' ≤ c ∧ c ≤ ch 'z')

/-- Whether the byte is an ASCII digit. -/
def isDigit (c : Byte) : Bool := decide (ch '0' ≤ c ∧ c ≤ ch '9')

/-- The function `strings.ToLower` on ASCII text (the only text it is applied to here). -/
def toLower (s : Str) : Str := s.map (fun c => if isUpper c then c + 32 else c)

/-! ## Package `net/url` (Go 1.22) -/

namespace url

/-- The escaping modes, the type `encoding`. -/
inductive Encoding where
  | encodePath
  | encodePathSegment
  | encodeHost
  | encodeZone
  | encodeUserPassword
  | encodeQueryComponent
  | encodeFragment
  deriving DecidableEq, Repr

open Encoding

/-- The function `ishex`. -/
def ishex (c : Byte) : Bool :=
  isDigit c || decide (ch 'a' ≤ c ∧ c ≤ ch 'f') || decide (ch 'A' ≤ c ∧ c ≤ ch 'F')

/-- The function `unhex`. -/
def unhex (c : Byte) : Byte :=
  if isDigit c then c - ch '0'
  else if ch 'a' ≤ c ∧ c ≤ ch 'f' then c - ch 'a' + 10
  else if ch 'A' ≤ c ∧ c ≤ ch 'F' then c - ch 'A' + 10
  else 0

/-- The table `upperhex`, indexed by a nibble. -/
def upperhex (n : Nat) : Byte :=
  if n < 10 then Fin.ofNat (48 + n) else Fin.ofNat (55 + n)

/-- The function `shouldEscape`: whether the byte is escaped in the given mode. -/
def shouldEscape (c : Byte) (mode : Encoding) : Bool :=
  if isLower c || isUpper c || isDigit c then false
  else if (mode = encodeHost ∨ mode = encodeZone) ∧
      c ∈ [ch '!', ch '$', ch '&', 39, ch '(', ch ')', ch '*', ch '+', ch ',', ch ';',
           ch '=', ch ':', ch '[', ch ']', ch '<', ch '>', 34] then false
  else if c ∈ [ch '-', ch '_', ch '.', ch '~'] then false
  else if c ∈ [ch '$', ch '&', ch '+', ch ',', ch '/', ch ':', ch ';', ch '=', ch '?',
               ch '@'] then
    match mode with
    | encodePath => c = ch '?'
    | encodePathSegment => c = ch '/' || c = ch ';' || c = ch ',' || c = ch '?'
    | encodeUserPassword => c = ch '@' || c = ch '/' || c = ch '?' || c = ch ':'
    | encodeQueryComponent => true
    | encodeFragment => false
    | _ => true
  else if mode = encodeFragment ∧ c ∈ [ch '!', ch '(', ch ')', ch '*'] then false
  else true

/-- The bytes `escape` writes for one byte of its input. -/
def escapeByte (mode : Encoding) (c : Byte) : Str :=
  if c = ch ' ' ∧ mode = encodeQueryComponent then [ch '+']
  else if shouldEscape c mode then [ch '%', upperhex (c.val / 16), upperhex (c.val % 16)]
  else [c]

/-- The function `escape`. -/
def escape (s : Str) (mode : Encoding) : Str := s.flatMap (escapeByte mode)

/-- The first pass of `unescape`: the error it reports for a malformed input, if any. -/
def unescapeCheck (mode : Encoding) : Str → Option String
  | [] => none
  | c :: rest =>
    if c = ch '%' then
      match rest with
      | h1 :: h2 :: rest2 =>
        if !(ishex h1 && ishex h2) then some "invalid URL escape"
        else if mode = encodeHost ∧ unhex h1 < 8 ∧ [c, h1, h2] ≠ str "%25" then
          some "invalid URL escape"
        else if mode = encodeZone ∧ [c, h1, h2] ≠ str "%25" ∧
            unhex h1 * 16 + unhex h2 ≠ ch ' ' ∧
            shouldEscape (unhex h1 * 16 + unhex h2) encodeHost then
          some "invalid URL escape"
        else unescapeCheck mode rest2
      | _ => some "invalid URL escape"
    else if c = ch '+' then unescapeCheck mode rest
    else if (mode = encodeHost ∨ mode = encodeZone) ∧ c.val < 128 ∧
        shouldEscape c encodeHost then
      some "invalid character in host name"
    else unescapeCheck mode rest

/-- The second pass of `unescape`, on an input the first pass accepted. -/
def unescapeDecode (mode : Encoding) : Str → Str
  | [] => []
  | c :: rest =>
    if c = ch '%' then
      match rest with
      | h1 :: h2 :: rest2 => (unhex h1 * 16 + unhex h2) :: unescapeDecode mode rest2
      | _ => []
    else if c = ch '+' then
      (if mode = encodeQueryComponent then ch ' ' else ch '+') :: unescapeDecode mode rest
    else c :: unescapeDecode mode rest

/-- The function `unescape`. -/
def unescape (s : Str) (mode : Encoding) : Except String Str :=
  match unescapeCheck mode s with
  | some e => .error e
  | none => .ok (unescapeDecode mode s)

/-- The function `QueryEscape`. -/
def QueryEscape (s : Str) : Str := escape s encodeQueryComponent

/-- The function `QueryUnescape`. -/
def QueryUnescape (s : Str) : Except String Str := unescape s encodeQueryComponent

/-- The type `Userinfo`. -/
structure Userinfo where
  username : Str
  password : Str
  passwordSet : Bool
  deriving DecidableEq, Repr

/-- The type `URL`; `User` is `none` for Go's nil pointer. -/
structure URL where
  Scheme : Str := []
  Opaque : Str := []
  User : Option Userinfo := none
  Host : Str := []
  Path : Str := []
  RawPath : Str := []
  OmitHost : Bool := false
  ForceQuery : Bool := false
  RawQuery : Str := []
  Fragment : Str := []
  RawFragment : Str := []
  deriving DecidableEq, Repr

/-- The loop of `getScheme`; `seen` holds the bytes before the current index. -/
def getSchemeLoop (rawURL : Str) : Str → Str → Except String (Str × Str)
  | _, [] => .ok ([], rawURL)
  | seen, c :: rest =>
    if isLower c || isUpper c then getSchemeLoop rawURL (seen ++ [c]) rest
    else if isDigit c || c = ch '+' || c = ch '-' || c = ch '.' then
      if seen = [] then .ok ([], rawURL) else getSchemeLoop rawURL (seen ++ [c]) rest
    else if c = ch ':' then
      if seen = [] then .error "missing protocol scheme" else .ok (seen, rest)
    else .ok ([], rawURL)

/-- The function `getScheme`: the scheme and the rest of the URL. -/
def getScheme (rawURL : Str) : Except String (Str × Str) := getSchemeLoop rawURL [] rawURL

/-- The function `stringContainsCTLByte`. -/
def stringContainsCTLByte (s : Str) : Bool := s.any (fun b => b < ch ' ' || b = 127)

/-- The function `validOptionalPort`. -/
def validOptionalPort (port : Str) : Bool :=
  match port with
  | [] => true
  | c :: digits => c = ch ':' && digits.all isDigit

/-- The function `validUserinfo`. -/
def validUserinfo (s : Str) : Bool :=
  s.all (fun r => isUpper r || isLower r || isDigit r ||
    decide (r ∈ [ch '-', ch '.', ch '_', ch ':', ch '~', ch '!', ch '$', ch '&', 39, ch '(',
      ch ')', ch '*', ch '+', ch ',', ch ';', ch '=', ch '%', ch '@']))

/-- The function `parseHost`. -/
def parseHost (host : Str) : Except String Str :=
  if (str "[").isPrefixOf host then
    match cutLast (ch ']') host with
    | none => .error "missing ']' in host"
    | some (inner, colonPort) =>
      if !validOptionalPort colonPort then .error "invalid port after host"
      else
        match cutAt (str "%25") inner with
        | some (h1, zone) =>
          match unescape h1 encodeHost with
          | .error e => .error e
          | .ok host1 =>
            match unescape zone encodeZone with
            | .error e => .error e
            | .ok host2 =>
              match unescape (ch ']' :: colonPort) encodeHost with
              | .error e => .error e
              | .ok host3 => .ok (host1 ++ host2 ++ host3)
        | none => unescape host encodeHost
  else
    match cutLast (ch ':') host with
    | some (_, port) =>
      if !validOptionalPort (ch ':' :: port) then .error "invalid port after host"
      else unescape host encodeHost
    | none => unescape host encodeHost

/-- The function `parseAuthority`: the user information and the host. -/
def parseAuthority (authority : Str) : Except String (Option Userinfo × Str) :=
  match cutLast (ch '@') authority with
  | none =>
    match parseHost authority with
    | .error e => .error e
    | .ok host => .ok (none, host)
  | some (userinfo, hostPart) =>
    match parseHost hostPart with
    | .error e => .error e
    | .ok host =>
      if !validUserinfo userinfo then .error "net/url: invalid userinfo"
      else if ch ':' ∉ userinfo then
        match unescape userinfo encodeUserPassword with
        | .error e => .error e
        | .ok name => .ok (some ⟨name, [], false⟩, host)
      else
        let c := cut (ch ':') userinfo
        match unescape c.1 encodeUserPassword with
        | .error e => .error e
        | .ok username =>
          match unescape c.2.1 encodeUserPassword with
          | .error e => .error e
          | .ok password => .ok (some ⟨username, password, true⟩, host)

/-- The method `setPath`. -/
def URL.setPath (u : URL) (p : Str) : Except String URL :=
  match unescape p encodePath with
  | .error e => .error e
  | .ok path =>
    if p = escape path encodePath then .ok { u with Path := path, RawPath := [] }
    else .ok { u with Path := path, RawPath := p }

/-- The method `setFragment`. -/
def URL.setFragment (u : URL) (f : Str) : Except String URL :=
  match unescape f encodeFragment with
  | .error e => .error e
  | .ok frag =>
    if f = escape frag encodeFragment then .ok { u with Fragment := frag, RawFragment := [] }
    else .ok { u with Fragment := frag, RawFragment := f }

/-- The function `parse`: a URL without its fragment. -/
def parse (rawURL : Str) (viaRequest : Bool) : Except String URL :=
  if stringContainsCTLByte rawURL then .error "net/url: invalid control character in URL"
  else if rawURL = [] ∧ viaRequest then .error "empty url"
  else if rawURL = str "*" then .ok { Path := str "*" }
  else
    match getScheme rawURL with
    | .error e => .error e
    | .ok (scheme, rest0) =>
      let scheme := toLower scheme
      let forceQuery : Bool := rest0.getLast? = some (ch '?') && rest0.count (ch '?') = 1
      let rest : Str := if forceQuery then rest0.dropLast else (cut (ch '?') rest0).1
      let rawQuery : Str := if forceQuery then [] else (cut (ch '?') rest0).2.1
      let u : URL := { Scheme := scheme, ForceQuery := forceQuery, RawQuery := rawQuery }
      if !(str "/").isPrefixOf rest ∧ scheme ≠ [] then .ok { u with Opaque := rest }
      else if !(str "/").isPrefixOf rest ∧ viaRequest then .error "invalid URI for request"
      else if !(str "/").isPrefixOf rest ∧ ch ':' ∈ (cut (ch '/') rest).1 then
        .error "first path segment in URL cannot contain colon"
      else if (scheme ≠ [] ∨ (!viaRequest ∧ !(str "///").isPrefixOf rest)) ∧
          (str "//").isPrefixOf rest then
        let c := cut (ch '/') (rest.drop 2)
        let authority := c.1
        let rest2 : Str := if c.2.2 then ch '/' :: c.2.1 else []
        match parseAuthority authority with
        | .error e => .error e
        | .ok (user, host) => URL.setPath { u with User := user, Host := host } rest2
      else if scheme ≠ [] ∧ (str "/").isPrefixOf rest then
        URL.setPath { u with OmitHost := true } rest
      else URL.setPath u rest

/-- The function `Parse`. -/
def Parse (rawURL : Str) : Except Error URL :=
  let c := cut (ch '#') rawURL
  match parse c.1 false with
  | .error e => .error (.urlError c.1 e)
  | .ok u =>
    if c.2.1 = [] then .ok u
    else
      match URL.setFragment u c.2.1 with
      | .error e => .error (.urlError rawURL e)
      | .ok u2 => .ok u2

/-- The function `validEncoded`. -/
def validEncoded (s : Str) (mode : Encoding) : Bool :=
  s.all (fun c =>
    decide (c ∈ [ch '!', ch '$', ch '&', 39, ch '(', ch ')', ch '*', ch '+', ch ',', ch ';',
      ch '=', ch ':', ch '@', ch '[', ch ']', ch '%']) || !shouldEscape c mode)

/-- The method `EscapedPath`. -/
def URL.EscapedPath (u : URL) : Str :=
  if u.RawPath ≠ [] ∧ validEncoded u.RawPath encodePath ∧
      unescape u.RawPath encodePath = .ok u.Path then u.RawPath
  else if u.Path = str "*" then str "*"
  else escape u.Path encodePath

/-- The method `EscapedFragment`. -/
def URL.EscapedFragment (u : URL) : Str :=
  if u.RawFragment ≠ [] ∧ validEncoded u.RawFragment encodeFragment ∧
      unescape u.RawFragment encodeFragment = .ok u.Fragment then u.RawFragment
  else escape u.Fragment encodeFragment

/-- The method `String` of `Userinfo`. -/
def Userinfo.String (u : Userinfo) : Str :=
  escape u.username encodeUserPassword ++
    (if u.passwordSet then ch ':' :: escape u.password encodeUserPassword else [])

/-- The part of `URL.String` written when `Opaque` is empty: authority and path. -/
def URL.hierPart (u : URL) (buf : Str) : Str :=
  let buf : Str :=
    if u.Scheme ≠ [] ∨ u.Host ≠ [] ∨ u.User ≠ none then
      if u.OmitHost ∧ u.Host = [] ∧ u.User = none then buf
      else
        let buf : Str := if u.Host ≠ [] ∨ u.Path ≠ [] ∨ u.User ≠ none then buf ++ str "//" else buf
        let buf : Str :=
          match u.User with
          | some ui => buf ++ Userinfo.String ui ++ str "@"
          | none => buf
        if u.Host ≠ [] then buf ++ escape u.Host encodeHost else buf
    else buf
  let path := URL.EscapedPath u
  let buf : Str :=
    if path ≠ [] ∧ path.head? ≠ some (ch '/') ∧ u.Host ≠ [] then buf ++ str "/" else buf
  let buf : Str :=
    if buf = [] ∧ ch ':' ∈ (cut (ch '/') path).1 then buf ++ str "./" else buf
  buf ++ path

/-- The method `String` of `URL`. -/
def URL.String (u : URL) : Str :=
  let buf : Str := if u.Scheme ≠ [] then u.Scheme ++ str ":" else []
  let buf : Str := if u.Opaque ≠ [] then buf ++ u.Opaque else URL.hierPart u buf
  let buf : Str := if u.ForceQuery ∨ u.RawQuery ≠ [] then buf ++ str "?" ++ u.RawQuery else buf
  if u.Fragment ≠ [] then buf ++ str "#" ++ URL.EscapedFragment u else buf

/-- The method `IsAbs`. -/
def URL.IsAbs (u : URL) : Bool := u.Scheme ≠ []

/-- The type `Values`, a `map[string][]string`. -/
abbrev Values := GoMap (List Str)

/-- The method `Values.Get`: the first value stored under the key, or the empty string. -/
def Values.Get (v : Values) (key : Str) : Str :=
  match GoMap.get v key with
  | some (x :: _) => x
  | _ => []

/-- The method `Values.Add`: `v[key] = append(v[key], value)`. -/
def Values.Add (v : Values) (key value : Str) : Values :=
  GoMap.set v key ((GoMap.get v key).getD [] ++ [value])

/-- One iteration of the loop of `parseQuery`, on the text `key` cut off before the next
ampersand: the map and the error so far, updated. -/
def parseQueryStep (acc : Values × Option String) (key : Str) : Values × Option String :=
  if ch ';' ∈ key then (acc.1, some "invalid semicolon separator in query")
  else if key = [] then acc
  else
    let c := cut (ch '=') key
    match QueryUnescape c.1 with
    | .error e => (acc.1, acc.2.or (some e))
    | .ok k =>
      match QueryUnescape c.2.1 with
      | .error e => (acc.1, acc.2.or (some e))
      | .ok value => (Values.Add acc.1 k value, acc.2)

/-- The function `ParseQuery`: the values parsed and the first error met, if any. The loop
of `parseQuery` cuts the query at each ampersand; an empty piece changes nothing. -/
def ParseQuery (query : Str) : Values × Option String :=
  (query.splitOn (ch '&')).foldl parseQueryStep ([], none)

/-- The method `URL.Query`, which drops the error of `ParseQuery`. -/
def URL.Query (u : URL) : Values := (ParseQuery u.RawQuery).1

/-- The order of `sort.Strings`: bytewise lexicographic. -/
def strLe : Str → Str → Bool
  | [], _ => true
  | _ :: _, [] => false
  | a :: as, b :: bs => decide (a < b) || (decide (a = b) && strLe as bs)

/-- The order of `sort.Strings` as a relation. -/
def StrLe (a b : Str) : Prop := strLe a b = true

instance : DecidableRel StrLe := fun a b => inferInstanceAs (Decidable (strLe a b = true))

/-- The function `sort.Strings`. -/
def sortStrings (keys : List Str) : List Str := keys.insertionSort StrLe

/-- The inner loop of `Values.Encode`: the values of one key written to the buffer. -/
def encodeKey (keyEscaped : Str) (buf : Str) (vs : List Str) : Str :=
  vs.foldl (fun buf v =>
    (if buf.length > 0 then buf ++ [ch '&'] else buf) ++ keyEscaped ++ [ch '='] ++ QueryEscape v)
    buf

/-- The method `Values.Encode`. -/
def Values.Encode (v : Values) : Str :=
  (sortStrings (GoMap.keys v)).foldl
    (fun buf k => encodeKey (QueryEscape k) buf ((GoMap.get v k).getD [])) []

end url

/-! ## Package `path` -/

namespace path

/-- The backtracking loop of `Clean` at a `..` element: the new write index, starting from
`w` and moving back while it is above `dotdot` and the byte at it is not a slash. -/
def backtrack (buf : Str) (dotdot : Nat) : Nat → Nat
  | 0 => 0
  | w + 1 =>
    if w + 1 > dotdot ∧ buf.get? (w + 1) ≠ some (ch '/') then backtrack buf dotdot w else w + 1

/-- The main loop of `Clean` over the unread part of the path. `out` is the text written
so far and `inElem` tells that the loop is inside the copy of a path element. -/
def cleanLoop (rooted : Bool) : Bool → Str → Str → Nat → Str
  | _, [], out, _ => out
  | true, c :: rest, out, dotdot =>
    if c = ch '/' then cleanLoop rooted false rest out dotdot
    else cleanLoop rooted true rest (out ++ [c]) dotdot
  | false, c :: rest, out, dotdot =>
    if c = ch '/' then cleanLoop rooted false rest out dotdot
    else if c = ch '.' ∧ (rest = [] ∨ rest.head? = some (ch '/')) then
      cleanLoop rooted false rest out dotdot
    else if c = ch '.' ∧ rest.head? = some (ch '.') ∧
        (rest.drop 1 = [] ∨ (rest.drop 1).head? = some (ch '/')) then
      match rest with
      | [] => out
      | _ :: rest2 =>
        if out.length > dotdot then
          cleanLoop rooted false rest2 (out.take (backtrack out dotdot (out.length - 1))) dotdot
        else if !rooted then
          let out1 : Str := (if out.length > 0 then out ++ [ch '/'] else out) ++ str ".."
          cleanLoop rooted false rest2 out1 out1.length
        else cleanLoop rooted false rest2 out dotdot
    else
      let out1 : Str :=
        if (rooted ∧ out.length ≠ 1) ∨ (!rooted ∧ out.length ≠ 0) then out ++ [ch '/'] else out
      cleanLoop rooted true rest (out1 ++ [c]) dotdot

/-- The function `path.Clean`. -/
def Clean (path : Str) : Str :=
  if path = [] then str "."
  else
    let rooted : Bool := path.head? = some (ch '/')
    let out : Str :=
      if rooted then cleanLoop rooted false (path.drop 1) (str "/") 1
      else cleanLoop rooted false path [] 0
    if out = [] then str "." else out

/-- The function `path.Join` of two elements. -/
def Join (a b : Str) : Str :=
  if a.length + b.length = 0 then []
  else
    let buf : Str := if a ≠ [] then a else []
    let buf : Str :=
      if buf.length > 0 ∨ b ≠ [] then (if buf.length > 0 then buf ++ [ch '/'] else buf) ++ b
      else buf
    Clean buf

end path

/-! ## Package `net/http` -/

namespace http

/-- The function `validHeaderFieldByte`: the token bytes of RFC 7230. -/
def validHeaderFieldByte (c : Byte) : Bool :=
  isLower c || isUpper c || isDigit c ||
  decide (c ∈ [ch '!', ch '#', ch '$', ch '%', ch '&', 39, ch '*', ch '+', ch '-', ch '.',
    ch '^', ch '_', 96, ch '|', ch '~'])

/-- The case-mapping loop of the unexported `canonicalMIMEHeaderKey`: upper case at the
start and after each dash, lower case elsewhere. -/
def canonicalLoop : Bool → Str → Str
  | _, [] => []
  | upper, c :: rest =>
    let c1 : Byte :=
      if upper ∧ isLower c then c - 32 else if !upper ∧ isUpper c then c + 32 else c
    c1 :: canonicalLoop (c1 = ch '-') rest

/-- The unexported function `canonicalMIMEHeaderKey`: a key with a byte that is not a token
byte is returned unchanged. -/
def canonicalMIMEHeaderKey (a : Str) : Str :=
  if a.all validHeaderFieldByte then canonicalLoop true a else a

/-- The loop of `textproto.CanonicalMIMEHeaderKey` over the unread part of the key `s`. -/
def canonicalScan (s : Str) : Bool → Str → Str
  | _, [] => s
  | upper, c :: rest =>
    if !validHeaderFieldByte c then s
    else if upper ∧ isLower c then canonicalMIMEHeaderKey s
    else if !upper ∧ isUpper c then canonicalMIMEHeaderKey s
    else canonicalScan s (c = ch '-') rest

/-- The function `textproto.CanonicalMIMEHeaderKey`. -/
def CanonicalMIMEHeaderKey (s : Str) : Str := canonicalScan s true s

/-- The type `Header`, a `map[string][]string`. -/
abbrev Header := GoMap (List Str)

/-- The method `Header.Set`. -/
def Header.Set (h : Header) (key value : Str) : Header :=
  GoMap.set h (CanonicalMIMEHeaderKey key) [value]

/-- The method `Header.Get`. -/
def Header.Get (h : Header) (key : Str) : Str :=
  match GoMap.get h (CanonicalMIMEHeaderKey key) with
  | some (v :: _) => v
  | _ => []

/-- The fields of the type `Request` that the package reads or writes; `Body` is `none`
for a request without a body. -/
structure Request where
  Method : Str
  URL : url.URL
  Header : Header
  Body : Option Str
  Host : Str
  deriving DecidableEq, Repr

/-- The fields of the type `Response` a caller sees. -/
structure Response where
  StatusCode : Nat
  Header : Header
  Body : Str
  deriving DecidableEq, Repr

/-- The function `validMethod`. -/
def validMethod (method : Str) : Bool := method.length > 0 && method.all validHeaderFieldByte

/-- The function `removeEmptyPort`. -/
def removeEmptyPort (host : Str) : Str :=
  let hasPort : Bool :=
    match cutLast (ch ':') host, cutLast (ch ']') host with
    | some (a, _), some (b, _) => a.length > b.length
    | some _, none => true
    | none, _ => false
  if hasPort ∧ host.getLast? = some (ch ':') then host.dropLast else host

/-- The function `NewRequest`; `body` is `none` for a nil reader. -/
def NewRequest (method : Str) (rawURL : Str) (body : Option Str) : Except Error Request :=
  let method := if method = [] then str "GET" else method
  if !validMethod method then .error (.httpError "net/http: invalid method")
  else
    match url.Parse rawURL with
    | .error e => .error e
    | .ok u =>
      let host := removeEmptyPort u.Host
      .ok { Method := method, URL := { u with Host := host }, Header := [], Body := body,
            Host := host }

/-- The type `Client`, reduced to its method `Do`, the transport. -/
structure Client where
  Do : Request → Except Error Response

end http

/-! ## Configuration -/

/-- The struct `Config`; `V` is the type of the values a body holds (`interface{}`). -/
structure Config (V : Type) where
  BaseURL : Str := []
  URL : Str := []
  Method : Str := []
  TargetType : Str := []
  Headers : GoMap Str := []
  QueryParams : GoMap Str := []
  Body : GoMap V := []

/-- The struct `MigMig`. -/
structure MigMig (V : Type) where
  Defaults : Config V
  Client : http.Client

/-- The function `json.Marshal` on a body, an external capability. -/
abbrev Marshal (V : Type) := GoMap V → Except Error Str

/-- The orders in which a `range` loop may visit the entries of a map: all of them. -/
def rangeOrders {T : Type} (m : GoMap T) : List (List (Str × T)) := m.permutations'

/-- The supported HTTP methods, the keys of the package variable `methods`. -/
def methods : List Str :=
  [str "GET", str "POST", str "PUT", str "DELETE", str "PATCH", str "HEAD", str "OPTIONS"]

/-- The function `New`. -/
def New (V : Type) (client : http.Client) : MigMig V := { Defaults := {}, Client := client }

/-- The function `Create`. -/
def Create {V : Type} (c : Config V) (client : http.Client) : MigMig V :=
  { Defaults := c, Client := client }

/-- The method `getMethod`. -/
def getMethod {V : Type} (m : MigMig V) (method : Str) : Except Error Str :=
  let method := if method = [] then m.Defaults.Method else method
  if method = [] then .error .errMethodMissing
  else if method ∉ methods then .error .errInvalidMethod
  else .ok method

/-- The method `getRequestURL`. -/
def getRequestURL {V : Type} (m : MigMig V) (requestURL baseURL : Str) : Except Error Str :=
  let requestURL := if requestURL = [] then m.Defaults.URL else requestURL
  let baseURL := if baseURL = [] then m.Defaults.BaseURL else baseURL
  match url.Parse requestURL with
  | .error err => .error err
  | .ok parsedURL =>
    if parsedURL.IsAbs then .ok parsedURL.String
    else
      match url.Parse baseURL with
      | .error err => .error err
      | .ok parsedBaseURL =>
        .ok (url.URL.String { parsedBaseURL with Path := path.Join parsedBaseURL.Path requestURL })

/-- The function `doesMethodAcceptBody`. -/
def doesMethodAcceptBody (method : Str) : Bool :=
  !(method = str "HEAD" || method = str "OPTIONS" || method = str "GET")

/-- What `getRequestBody` returns, with the arguments `json.Marshal` was called on. -/
structure BodyResult (V : Type) where
  /-- The `*bytes.Reader`: the bytes to read, `none` for nil. -/
  reader : Option Str
  /-- The error, `none` for nil. -/
  err : Option Error
  /-- The arguments of the calls of `json.Marshal`, in order. -/
  marshalled : List (GoMap V)

/-- The method `getRequestBody`. -/
def getRequestBody {V : Type} (marshal : Marshal V) (m : MigMig V) (body : GoMap V)
    (method : Str) : BodyResult V :=
  let body := if body.length = 0 then m.Defaults.Body else body
  if body.length = 0 ∨ !doesMethodAcceptBody method then ⟨none, none, []⟩
  else
    match marshal body with
    | .error err => ⟨none, some err, [body]⟩
    | .ok content => ⟨some content, none, [body]⟩

/-- The two loops that fill a fresh map with the defaults and then with the per-call
entries, `m[k] = v` for each entry. -/
def mergeMaps (defaults perCall : GoMap Str) : GoMap Str :=
  perCall.foldl (fun m kv => GoMap.set m kv.1 kv.2)
    (defaults.foldl (fun m kv => GoMap.set m kv.1 kv.2) [])

/-- The method `setQueryParams`: the request after the call, for each order in which the
`range` loop may visit the merged map. -/
def setQueryParams {V : Type} (m : MigMig V) (req : http.Request) (queryParams : GoMap Str) :
    List http.Request :=
  let qp := mergeMaps m.Defaults.QueryParams queryParams
  (rangeOrders qp).map fun order =>
    let q := order.foldl (fun q kv => url.Values.Add q kv.1 kv.2) req.URL.Query
    { req with URL := { req.URL with RawQuery := url.Values.Encode q } }

/-- The last statement of `setHeaders`: the default content type. -/
def defaultContentType (req : http.Request) : http.Request :=
  if http.Header.Get req.Header (str "Content-Type") = [] then
    { req with Header := http.Header.Set req.Header (str "Content-Type") (str "application/json") }
  else req

/-- The loop of `setHeaders` over the merged map, visited in the given order. -/
def applyHeaders (req : http.Request) (order : List (Str × Str)) : http.Request :=
  order.foldl (fun r kv => { r with Header := http.Header.Set r.Header kv.1 kv.2 }) req

/-- The method `setHeaders`: the request after the call, for each order in which the
`range` loop may visit the merged map. -/
def setHeaders {V : Type} (m : MigMig V) (req : http.Request) (headers : GoMap Str) :
    List http.Request :=
  let h := mergeMaps m.Defaults.Headers headers
  (rangeOrders h).map fun order => defaultContentType (applyHeaders req order)

/-- What a call of `Request` did: its result and the requests handed to `Client.Do`. -/
structure Outcome where
  result : Except Error http.Response
  sent : List http.Request
  deriving DecidableEq

/-- The method `Request`: its possible outcomes, one for each order in which the `range`
loops of `setQueryParams` and `setHeaders` may visit their maps. -/
def Request {V : Type} (marshal : Marshal V) (m : MigMig V) (c : Config V) : List Outcome :=
  match getMethod m c.Method with
  | .error err => [⟨.error err, []⟩]
  | .ok method =>
    match getRequestURL m c.URL c.BaseURL with
    | .error err => [⟨.error err, []⟩]
    | .ok requestURL =>
      let b := getRequestBody marshal m c.Body method
      match b.err with
      | some err => [⟨.error err, []⟩]
      | none =>
        match http.NewRequest method requestURL b.reader with
        | .error err => [⟨.error err, []⟩]
        | .ok req =>
          (setQueryParams m req c.QueryParams).flatMap fun req1 =>
            (setHeaders m req1 c.Headers).map fun req2 => ⟨m.Client.Do req2, [req2]⟩

/-- The body shared by the seven verb methods: the outcomes of the request, and the
configuration of the caller after the call (`none` when the caller passed nil). -/
def verb {V : Type} (method : Str) (marshal : Marshal V) (m : MigMig V) (url : Str)
    (c : Option (Config V)) : List Outcome × Option (Config V) :=
  let c1 : Config V := { (c.getD {}) with URL := url, Method := method }
  (Request marshal m c1, c.map fun _ => c1)

/-- The method `Get`. -/
def Get {V : Type} (marshal : Marshal V) (m : MigMig V) (url : Str) (c : Option (Config V)) :
    List Outcome × Option (Config V) := verb (str "GET") marshal m url c

/-- The method `Post`. -/
def Post {V : Type} (marshal : Marshal V) (m : MigMig V) (url : Str) (c : Option (Config V)) :
    List Outcome × Option (Config V) := verb (str "POST") marshal m url c

/-- The method `Delete`. -/
def Delete {V : Type} (marshal : Marshal V) (m : MigMig V) (url : Str)
    (c : Option (Config V)) : List Outcome × Option (Config V) :=
  verb (str "DELETE") marshal m url c

/-- The method `Patch`. -/
def Patch {V : Type} (marshal : Marshal V) (m : MigMig V) (url : Str) (c : Option (Config V)) :
    List Outcome × Option (Config V) := verb (str "PATCH") marshal m url c

/-- The method `Put`. -/
def Put {V : Type} (marshal : Marshal V) (m : MigMig V) (url : Str) (c : Option (Config V)) :
    List Outcome × Option (Config V) := verb (str "PUT") marshal m url c

/-- The method `Options`. -/
def Options {V : Type} (marshal : Marshal V) (m : MigMig V) (url : Str)
    (c : Option (Config V)) : List Outcome × Option (Config V) :=
  verb (str "OPTIONS") marshal m url c

/-- The method `Head`. -/
def Head {V : Type} (marshal : Marshal V) (m : MigMig V) (url : Str) (c : Option (Config V)) :
    List Outcome × Option (Config V) := verb (str "HEAD") marshal m url c

/-! ## Memory

`Config` holds maps, which Go passes by reference, and the verb methods receive a pointer
to a `Config`. To state what a call may change, the methods that allocate or assign are
given a second time over a memory of `Config` structs and maps, each kind addressed by
its index. The three stages `getMethod`, `getRequestURL` and `getRequestBody` assign to
their local variables only and stay functions of the values they read. -/

/-- A `Config` struct as it lies in memory: its strings, and the addresses of its maps,
`none` for a nil map. -/
structure ConfigCell where
  BaseURL : Str := []
  URL : Str := []
  Method : Str := []
  TargetType : Str := []
  Headers : Option Nat := none
  QueryParams : Option Nat := none
  Body : Option Nat := none
  deriving DecidableEq, Repr

/-- The objects a call can reach: the `Config` structs, the `map[string]string` objects
and the `map[string]interface{}` objects. -/
structure Memory (V : Type) where
  configs : List ConfigCell
  strMaps : List (GoMap Str)
  bodyMaps : List (GoMap V)

/-- A pointer to a `MigMig`: the address of its field `Defaults`, and its client. -/
structure ClientRef where
  Defaults : Nat
  Client : http.Client

/-- The list with the element at index `i` replaced by its image under `f`. -/
def updateAt {α : Type} : List α → Nat → (α → α) → List α
  | [], _, _ => []
  | x :: xs, 0, f => f x :: xs
  | x :: xs, i + 1, f => x :: updateAt xs i f

/-- The `Config` struct at an address. -/
def Memory.cell {V : Type} (mem : Memory V) (a : Nat) : ConfigCell := (mem.configs.get? a).getD {}

/-- The entries of the `map[string]string` a field refers to; a nil map has none. -/
def Memory.strMap {V : Type} (mem : Memory V) (a : Option Nat) : GoMap Str :=
  match a with
  | none => []
  | some i => (mem.strMaps.get? i).getD []

/-- The entries of the body map a field refers to; a nil map has none. -/
def Memory.bodyMap {V : Type} (mem : Memory V) (a : Option Nat) : GoMap V :=
  match a with
  | none => []
  | some i => (mem.bodyMaps.get? i).getD []

/-- The value of the `Config` at an address, its maps read through their addresses. -/
def Memory.config {V : Type} (mem : Memory V) (a : Nat) : Config V :=
  { BaseURL := (mem.cell a).BaseURL, URL := (mem.cell a).URL, Method := (mem.cell a).Method,
    TargetType := (mem.cell a).TargetType, Headers := mem.strMap (mem.cell a).Headers,
    QueryParams := mem.strMap (mem.cell a).QueryParams, Body := mem.bodyMap (mem.cell a).Body }

/-- The value of the client a pointer refers to. -/
def Memory.client {V : Type} (mem : Memory V) (mr : ClientRef) : MigMig V :=
  { Defaults := mem.config mr.Defaults, Client := mr.Client }

/-- Every map address held by a `Config` in memory is the address of a map in memory. -/
def Memory.Valid {V : Type} (mem : Memory V) : Prop :=
  ∀ cell ∈ mem.configs,
    (∀ i, cell.Headers = some i → i < mem.strMaps.length) ∧
    (∀ i, cell.QueryParams = some i → i < mem.strMaps.length)

/-- The memory `mem2` has the `Config` structs, the body maps and, at their addresses, the
`map[string]string` objects of `mem1`; it may hold more maps. -/
def Memory.Extends {V : Type} (mem1 mem2 : Memory V) : Prop :=
  mem2.configs = mem1.configs ∧ mem2.bodyMaps = mem1.bodyMaps ∧
  mem1.strMaps.length ≤ mem2.strMaps.length ∧
  ∀ j, j < mem1.strMaps.length → mem2.strMaps.get? j = mem1.strMaps.get? j

/-- The expression `make(map[string]string)`: the memory with the new map, and its
address. -/
def Memory.makeStrMap {V : Type} (mem : Memory V) : Memory V × Nat :=
  ({ mem with strMaps := mem.strMaps ++ [[]] }, mem.strMaps.length)

/-- The assignment `h[k] = v` for the map `h` at the address `a`. -/
def Memory.setStr {V : Type} (mem : Memory V) (a : Nat) (k v : Str) : Memory V :=
  { mem with strMaps := updateAt mem.strMaps a fun h => GoMap.set h k v }

/-- The loop `for k, v := range src { dst[k] = v }`. -/
def Memory.copyInto {V : Type} (mem : Memory V) (src : Option Nat) (dst : Nat) : Memory V :=
  (mem.strMap src).foldl (fun s kv => s.setStr dst kv.1 kv.2) mem

/-- The method `setQueryParams` on memory: for each order of the last loop, the request
and the memory after the call. -/
def Memory.setQueryParams {V : Type} (mem : Memory V) (mr : ClientRef) (req : http.Request)
    (queryParams : Option Nat) : List (http.Request × Memory V) :=
  let qp := mem.makeStrMap
  let mem1 := qp.1.copyInto (qp.1.cell mr.Defaults).QueryParams qp.2
  let mem2 := mem1.copyInto queryParams qp.2
  (rangeOrders (mem2.strMap (some qp.2))).map fun order =>
    let q := order.foldl (fun q kv => url.Values.Add q kv.1 kv.2) req.URL.Query
    ({ req with URL := { req.URL with RawQuery := url.Values.Encode q } }, mem2)

/-- The method `setHeaders` on memory: for each order of the last loop, the request and
the memory after the call. -/
def Memory.setHeaders {V : Type} (mem : Memory V) (mr : ClientRef) (req : http.Request)
    (headers : Option Nat) : List (http.Request × Memory V) :=
  let h := mem.makeStrMap
  let mem1 := h.1.copyInto (h.1.cell mr.Defaults).Headers h.2
  let mem2 := mem1.copyInto headers h.2
  (rangeOrders (mem2.strMap (some h.2))).map fun order =>
    (defaultContentType (applyHeaders req order), mem2)

/-- The method `Request` on memory, called with the address `c` of a `Config`: its
possible outcomes, each with the memory after the call. -/
def Memory.Request {V : Type} (marshal : Marshal V) (mem : Memory V) (mr : ClientRef)
    (c : Nat) : List (Outcome × Memory V) :=
  match getMethod (mem.client mr) (mem.cell c).Method with
  | .error err => [(⟨.error err, []⟩, mem)]
  | .ok method =>
    match getRequestURL (mem.client mr) (mem.cell c).URL (mem.cell c).BaseURL with
    | .error err => [(⟨.error err, []⟩, mem)]
    | .ok requestURL =>
      let b := getRequestBody marshal (mem.client mr) (mem.bodyMap (mem.cell c).Body) method
      match b.err with
      | some err => [(⟨.error err, []⟩, mem)]
      | none =>
        match http.NewRequest method requestURL b.reader with
        | .error err => [(⟨.error err, []⟩, mem)]
        | .ok req =>
          (mem.setQueryParams mr req (mem.cell c).QueryParams).flatMap fun p1 =>
            (p1.2.setHeaders mr p1.1 (p1.2.cell c).Headers).map fun p2 =>
              (⟨mr.Client.Do p2.1, [p2.1]⟩, p2.2)

/-- The assignment `c.URL = url` for the `Config` at the address `c`. -/
def Memory.setURL {V : Type} (mem : Memory V) (c : Nat) (url : Str) : Memory V :=
  { mem with configs := updateAt mem.configs c fun cell => { cell with URL := url } }

/-- The assignment `c.Method = method` for the `Config` at the address `c`. -/
def Memory.setMethod {V : Type} (mem : Memory V) (c : Nat) (method : Str) : Memory V :=
  { mem with configs := updateAt mem.configs c fun cell => { cell with Method := method } }

/-- The body shared by the seven verb methods on memory, called with a pointer `c` to a
`Config`, `none` for nil: a nil pointer is replaced by the address of a new empty
`Config`, then `c.URL` and `c.Method` are assigned and `Request` is called. -/
def Memory.verb {V : Type} (method : Str) (marshal : Marshal V) (mem : Memory V)
    (mr : ClientRef) (url : Str) (c : Option Nat) : List (Outcome × Memory V) :=
  let mem1 : Memory V :=
    match c with
    | none => { mem with configs := mem.configs ++ [{}] }
    | some _ => mem
  let c1 : Nat := c.getD mem.configs.length
  ((mem1.setURL c1 url).setMethod c1 method).Request marshal mr c1

/-! ## Sample values -/

/-- A transport that answers every request with status 200. -/
def okClient : http.Client := ⟨fun _ => .ok ⟨200, [], []⟩⟩

/-- A request as `http.NewRequest` returns it, with an empty header map. -/
def freshRequest : http.Request :=
  { Method := str "GET", URL := { Scheme := str "http", Host := str "example.com" },
    Header := [], Body := none, Host := str "example.com" }


/-- A request as `http.NewRequest` returns it for a URL with the query string `q`. -/
def requestWithQuery (q : Str) : http.Request :=
  { freshRequest with URL := { freshRequest.URL with RawQuery := q } }

/-- A sample memory: the defaults at address 0 and a per-call `Config` at address 1,
which share the header map at address 0. -/
def sampleMemory : Memory Nat :=
  { configs :=
      [{ Method := str "GET", BaseURL := str "http://api.example.com/v1", Headers := some 0,
         QueryParams := some 1 },
       { URL := str "users", Headers := some 0, QueryParams := some 2 }],
    strMaps := [[(str "X", str "1")], [(str "a", str "1")], [(str "a", str "2")]],
    bodyMaps := [] }

/-- A sample serializer for bodies of numbers: the JSON object with the keys sorted, as
`json.Marshal` writes a map; keys are written without escaping. -/
def sampleMarshal : Marshal Nat := fun body =>
  .ok ([123] ++ [ch ','].intercalate ((url.sortStrings (GoMap.keys body)).map fun k =>
    [34] ++ k ++ [34, ch ':'] ++
      ((Nat.toDigits 10 ((GoMap.get body k).getD 0)).map fun c => Fin.ofNat c.toNat)) ++ [125])

/-- A serializer that fails on every body, as `json.Marshal` does on a value of an
unsupported type. -/
def failingMarshal (V : Type) : Marshal V := fun _ =>
  .error (.jsonError "json: unsupported type")

/-- The text `Values.Encode` writes for one key and one of its values. -/
def url.encodePair (k v : Str) : Str := url.QueryEscape k ++ ch '=' :: url.QueryEscape v

/-- The pairs of a key and one of its values in the order `Values.Encode` writes them:
keys sorted, the values of a key in their order. -/
def url.Values.pairs (v : url.Values) : List (Str × Str) :=
  (url.sortStrings (GoMap.keys v)).flatMap fun k => ((GoMap.get v k).getD []).map fun x => (k, x)

/-- The pieces joined by ampersands. -/
def joinAmp : List Str → Str
  | [] => []
  | [s] => s
  | s :: t => s ++ ch '&' :: joinAmp t

/-! ## Maps: assignment, lookup and iteration order -/

theorem GoMap.get_set {T : Type} (m : GoMap T) (k : Str) (v : T) (k' : Str) :
    GoMap.get (GoMap.set m k v) k' = if k = k' then some v else GoMap.get m k' := by
  induction m with
  | nil => simp [GoMap.set, GoMap.get]
  | cons x rest ih =>
    obtain ⟨k1, v1⟩ := x
    by_cases h1 : k1 = k
    · subst h1
      by_cases h2 : k1 = k' <;> simp [GoMap.set, GoMap.get, h2]
    · by_cases h2 : k1 = k'
      · subst h2
        simp [GoMap.set, GoMap.get, h1, Ne.symm h1]
      · simp [GoMap.set, GoMap.get, h1, h2, ih]

theorem GoMap.get_eq_none {T : Type} (m : GoMap T) (k : Str) :
    GoMap.get m k = none ↔ k ∉ GoMap.keys m := by
  induction m with
  | nil => simp [GoMap.get, GoMap.keys]
  | cons x rest ih =>
    obtain ⟨k1, v1⟩ := x
    by_cases h : k1 = k
    · simp [GoMap.get, GoMap.keys, h]
    · simp only [GoMap.get, h, if_false, ih]
      simp [GoMap.keys, Ne.symm h]

theorem GoMap.mem_iff_get {T : Type} (m : GoMap T) (hnd : (GoMap.keys m).Nodup) (k : Str)
    (v : T) : (k, v) ∈ m ↔ GoMap.get m k = some v := by
  induction m with
  | nil => simp [GoMap.get]
  | cons x rest ih =>
    obtain ⟨k1, v1⟩ := x
    have hnd' : (GoMap.keys rest).Nodup := (List.nodup_cons.1 hnd).2
    have hk1 : k1 ∉ GoMap.keys rest := (List.nodup_cons.1 hnd).1
    by_cases h : k1 = k
    · subst h
      simp only [GoMap.get, if_true, List.mem_cons, Prod.mk.injEq, true_and, Option.some.injEq]
      constructor
      · rintro (h | h)
        · exact h.symm
        · exact absurd (List.mem_map_of_mem Prod.fst h) hk1
      · intro h
        exact Or.inl h.symm
    · simp only [GoMap.get, h, if_false, List.mem_cons, Prod.mk.injEq, ← ih hnd']
      constructor
      · rintro (⟨h1, _⟩ | h1)
        · exact absurd h1.symm h
        · exact h1
      · exact Or.inr

theorem GoMap.mem_keys_of_mem {T : Type} {m : GoMap T} {k : Str} {v : T} (h : (k, v) ∈ m) :
    k ∈ GoMap.keys m := List.mem_map_of_mem Prod.fst h

theorem GoMap.keys_set {T : Type} (m : GoMap T) (k : Str) (v : T) :
    GoMap.keys (GoMap.set m k v) = if k ∈ GoMap.keys m then GoMap.keys m
      else GoMap.keys m ++ [k] := by
  induction m with
  | nil => simp [GoMap.set, GoMap.keys]
  | cons x rest ih =>
    obtain ⟨k1, v1⟩ := x
    by_cases h : k1 = k
    · simp [GoMap.set, GoMap.keys, h]
    · have ih' := ih
      simp only [GoMap.keys] at ih'
      simp only [GoMap.set, h, if_false, GoMap.keys, List.map_cons, List.mem_cons, Ne.symm h,
        false_or, ih']
      split <;> simp

theorem GoMap.nodup_set {T : Type} (m : GoMap T) (k : Str) (v : T)
    (hnd : (GoMap.keys m).Nodup) : (GoMap.keys (GoMap.set m k v)).Nodup := by
  rw [GoMap.keys_set]
  split
  · exact hnd
  · rename_i h
    exact List.Nodup.append hnd (List.nodup_singleton k) (by simpa using h)

theorem GoMap.set_of_not_mem {T : Type} (m : GoMap T) (k : Str) (v : T)
    (h : k ∉ GoMap.keys m) : GoMap.set m k v = m ++ [(k, v)] := by
  induction m with
  | nil => rfl
  | cons x rest ih =>
    obtain ⟨k1, v1⟩ := x
    simp only [GoMap.keys, List.map_cons, List.mem_cons, not_or] at h
    have h2 : k ∉ GoMap.keys rest := h.2
    simp [GoMap.set, Ne.symm h.1, ih h2]

theorem GoMap.nodup_foldl_set (l : GoMap Str) (m0 : GoMap Str) (h0 : (GoMap.keys m0).Nodup) :
    (GoMap.keys (l.foldl (fun m kv => GoMap.set m kv.1 kv.2) m0)).Nodup := by
  induction l generalizing m0 with
  | nil => exact h0
  | cons x rest ih => exact ih _ (GoMap.nodup_set _ _ _ h0)

theorem GoMap.get_foldl_set (l : GoMap Str) (hnd : (GoMap.keys l).Nodup) (m0 : GoMap Str)
    (k : Str) :
    GoMap.get (l.foldl (fun m kv => GoMap.set m kv.1 kv.2) m0) k =
      (GoMap.get l k).orElse (fun _ => GoMap.get m0 k) := by
  induction l generalizing m0 with
  | nil => simp [GoMap.get]
  | cons x rest ih =>
    obtain ⟨k1, v1⟩ := x
    have hnd' : (GoMap.keys rest).Nodup := (List.nodup_cons.1 hnd).2
    have hk1 : k1 ∉ GoMap.keys rest := (List.nodup_cons.1 hnd).1
    simp only [List.foldl_cons, ih hnd', GoMap.get_set]
    by_cases h : k1 = k
    · subst h
      simp [GoMap.get, (GoMap.get_eq_none rest k1).2 hk1]
    · simp [GoMap.get, h]

theorem mergeMaps_nodup (D P : GoMap Str) : (GoMap.keys (mergeMaps D P)).Nodup :=
  GoMap.nodup_foldl_set _ _ (GoMap.nodup_foldl_set _ _ List.nodup_nil)

theorem mergeMaps_get (D P : GoMap Str) (hD : (GoMap.keys D).Nodup)
    (hP : (GoMap.keys P).Nodup) (k : Str) :
    GoMap.get (mergeMaps D P) k = (GoMap.get P k).orElse (fun _ => GoMap.get D k) := by
  unfold mergeMaps
  rw [GoMap.get_foldl_set P hP, GoMap.get_foldl_set D hD]
  simp [GoMap.get]

theorem mergeMaps_mem (D P : GoMap Str) (hD : (GoMap.keys D).Nodup)
    (hP : (GoMap.keys P).Nodup) (k v : Str) :
    (k, v) ∈ mergeMaps D P ↔ (k, v) ∈ P ∨ ((k, v) ∈ D ∧ k ∉ GoMap.keys P) := by
  rw [GoMap.mem_iff_get _ (mergeMaps_nodup D P), mergeMaps_get D P hD hP,
    GoMap.mem_iff_get _ hP, GoMap.mem_iff_get _ hD, ← GoMap.get_eq_none]
  cases h : GoMap.get P k <;> simp

theorem mem_rangeOrders {T : Type} (m : GoMap T) (order : List (Str × T)) :
    order ∈ rangeOrders m ↔ order.Perm m := by
  unfold rangeOrders
  exact List.mem_permutations'

theorem rangeOrders_ne_nil {T : Type} (m : GoMap T) : rangeOrders m ≠ [] := by
  intro h
  have : m ∈ rangeOrders m := (mem_rangeOrders m m).2 (List.Perm.refl m)
  rw [h] at this
  exact List.not_mem_nil _ this

/-! ## Path cleaning -/

theorem path.cleanLoop_elem_step (rooted : Bool) (c : Byte) (rest out : Str) (dotdot : Nat) :
    path.cleanLoop rooted true (c :: rest) out dotdot =
      if c = ch '/' then path.cleanLoop rooted false rest out dotdot
      else path.cleanLoop rooted true rest (out ++ [c]) dotdot := rfl

theorem path.cleanLoop_step (rooted : Bool) (c : Byte) (rest out : Str) (dotdot : Nat) :
    path.cleanLoop rooted false (c :: rest) out dotdot =
      if c = ch '/' then path.cleanLoop rooted false rest out dotdot
      else if c = ch '.' ∧ (rest = [] ∨ rest.head? = some (ch '/')) then
        path.cleanLoop rooted false rest out dotdot
      else if c = ch '.' ∧ rest.head? = some (ch '.') ∧
          (rest.drop 1 = [] ∨ (rest.drop 1).head? = some (ch '/')) then
        match rest with
        | [] => out
        | _ :: rest2 =>
          if out.length > dotdot then
            path.cleanLoop rooted false rest2
              (out.take (path.backtrack out dotdot (out.length - 1))) dotdot
          else if !rooted then
            path.cleanLoop rooted false rest2
              ((if out.length > 0 then out ++ [ch '/'] else out) ++ str "..")
              ((if out.length > 0 then out ++ [ch '/'] else out) ++ str "..").length
          else path.cleanLoop rooted false rest2 out dotdot
      else
        path.cleanLoop rooted true rest
          ((if (rooted ∧ out.length ≠ 1) ∨ (!rooted ∧ out.length ≠ 0) then out ++ [ch '/']
            else out) ++ [c]) dotdot := by
  conv_lhs => rw [path.cleanLoop.eq_def]
  rfl

theorem path.cleanLoop_append_slash (rooted : Bool) (n : Nat) :
    ∀ (rest : Str), rest.length ≤ n → ∀ (inElem : Bool) (out : Str) (dotdot : Nat),
      path.cleanLoop rooted inElem (rest ++ [ch '/']) out dotdot =
        path.cleanLoop rooted inElem rest out dotdot := by
  induction n with
  | zero =>
    intro rest hlen inElem out dotdot
    have : rest = [] := List.length_eq_zero.1 (Nat.le_zero.1 hlen)
    subst this
    cases inElem <;> simp [path.cleanLoop]
  | succ n ih =>
    intro rest hlen inElem out dotdot
    match rest, hlen with
    | [], _ => cases inElem <;> simp [path.cleanLoop]
    | c :: r, hlen =>
      have hr : r.length ≤ n := by simpa using hlen
      cases inElem with
      | true =>
        rw [List.cons_append, path.cleanLoop_elem_step, path.cleanLoop_elem_step,
          ih r hr, ih r hr]
      | false =>
        rw [List.cons_append, path.cleanLoop_step, path.cleanLoop_step, ih r hr, ih r hr]
        have hsd : ¬ (ch '/' = ch '.') := by decide
        match r, hr with
        | [], _ => simp [hsd]
        | d :: r2, hr =>
          have hr2 : r2.length ≤ n := by
            simp only [List.length_cons] at hr
            omega
          have e2 := ih r2 hr2 false
          match r2, e2 with
          | [], e2 =>
            simp only [List.nil_append] at e2
            simp [e2, path.cleanLoop]
          | e :: r3, e2 =>
            simp only [List.cons_append] at e2
            simp [e2]

theorem path.Clean_append_slash (p : Str) (hp : p ≠ []) :
    path.Clean (p ++ [ch '/']) = path.Clean p := by
  obtain ⟨c, r, rfl⟩ := List.exists_cons_of_ne_nil hp
  simp only [path.Clean, List.cons_append, List.head?_cons, List.drop_succ_cons, List.drop_zero,
    if_neg (List.cons_ne_nil _ _)]
  rw [← List.cons_append, path.cleanLoop_append_slash _ _ _ (Nat.le_refl _),
    path.cleanLoop_append_slash _ _ _ (Nat.le_refl _)]

theorem path.Join_empty (p : Str) :
    path.Join p [] = if p = [] then [] else path.Clean p := by
  by_cases hp : p = []
  · subst hp
    rfl
  · have hl : 0 < p.length := List.length_pos.2 hp
    have hl' : ¬ (p.length = 0) := by omega
    simp only [path.Join, List.length_nil, Nat.add_zero, hl', if_false, hp, ne_eq,
      not_false_eq_true, if_true, hl, gt_iff_lt, true_or, List.append_nil,
      not_true_eq_false, or_false]
    exact path.Clean_append_slash p hp

/-! ## Headers -/

theorem applyHeaders_append (req : http.Request) (l : List (Str × Str)) (x : Str × Str) :
    (applyHeaders req (l ++ [x])).Header =
      http.Header.Set (applyHeaders req l).Header x.1 x.2 := by
  simp [applyHeaders, List.foldl_append]

theorem applyHeaders_get_other (req : http.Request) (order : List (Str × Str)) (c : Str)
    (h : ∀ kv ∈ order, http.CanonicalMIMEHeaderKey kv.1 ≠ c) :
    GoMap.get (applyHeaders req order).Header c = GoMap.get req.Header c := by
  induction order using List.reverseRecOn with
  | nil => rfl
  | append_singleton l x ih =>
    rw [applyHeaders_append, http.Header.Set, GoMap.get_set,
      if_neg (h x (by simp)), ih (fun kv hkv => h kv (by simp [hkv]))]

theorem applyHeaders_get (req : http.Request) (order : List (Str × Str))
    (hnd : (GoMap.keys order).Nodup) (k v : Str) (hmem : (k, v) ∈ order)
    (hcol : ∀ kv ∈ order, http.CanonicalMIMEHeaderKey kv.1 = http.CanonicalMIMEHeaderKey k →
      kv.1 = k) :
    GoMap.get (applyHeaders req order).Header (http.CanonicalMIMEHeaderKey k) = some [v] := by
  induction order using List.reverseRecOn with
  | nil => simp at hmem
  | append_singleton l x ih =>
    rw [applyHeaders_append, http.Header.Set, GoMap.get_set]
    by_cases hx : http.CanonicalMIMEHeaderKey x.1 = http.CanonicalMIMEHeaderKey k
    · rw [if_pos hx]
      have hk : x.1 = k := hcol x (by simp) hx
      have h1 : (k, v) ∈ l ++ [x] := hmem
      have h2 : (x.1, x.2) ∈ l ++ [x] := by simp
      rw [GoMap.mem_iff_get _ hnd] at h1 h2
      rw [hk, h1] at h2
      simp only [Option.some.injEq] at h2
      rw [h2]
    · rw [if_neg hx]
      have hnd' : (GoMap.keys l).Nodup := by
        simp only [GoMap.keys, List.map_append] at hnd
        exact (List.nodup_append.1 hnd).1
      have hmem' : (k, v) ∈ l := by
        rcases List.mem_append.1 hmem with h | h
        · exact h
        · simp only [List.mem_singleton] at h
          subst h
          exact absurd rfl hx
      exact ih hnd' hmem' (fun kv hkv => hcol kv (by simp [hkv]))

theorem canonical_contentType :
    http.CanonicalMIMEHeaderKey (str "Content-Type") = str "Content-Type" := by decide!

theorem defaultContentType_get (req : http.Request) (c : Str) (hc : c ≠ str "Content-Type") :
    GoMap.get (defaultContentType req).Header c = GoMap.get req.Header c := by
  unfold defaultContentType
  split
  · simp only [http.Header.Set, canonical_contentType, GoMap.get_set, if_neg (Ne.symm hc)]
  · rfl

theorem defaultContentType_contentType (req : http.Request) :
    http.Header.Get (defaultContentType req).Header (str "Content-Type") =
      if http.Header.Get req.Header (str "Content-Type") = [] then str "application/json"
      else http.Header.Get req.Header (str "Content-Type") := by
  unfold defaultContentType
  split
  · simp [http.Header.Get, http.Header.Set, canonical_contentType, GoMap.get_set]
  · rfl

theorem defaultContentType_Get (req : http.Request) (k : Str) :
    http.Header.Get (defaultContentType req).Header k =
      if http.CanonicalMIMEHeaderKey k = str "Content-Type" then
        (if http.Header.Get req.Header (str "Content-Type") = [] then str "application/json"
         else http.Header.Get req.Header (str "Content-Type"))
      else http.Header.Get req.Header k := by
  by_cases hc : http.CanonicalMIMEHeaderKey k = str "Content-Type"
  · have hk : ∀ h : http.Header, http.Header.Get h k = http.Header.Get h (str "Content-Type") := by
      intro h
      simp only [http.Header.Get, hc, canonical_contentType]
    rw [if_pos hc, hk, defaultContentType_contentType]
  · rw [if_neg hc]
    simp only [http.Header.Get, defaultContentType_get _ _ hc]

theorem setHeaders_ne_nil {V : Type} (m : MigMig V) (req : http.Request) (P : GoMap Str) :
    setHeaders m req P ≠ [] := by
  simp [setHeaders, rangeOrders_ne_nil]

theorem mem_setHeaders {V : Type} (m : MigMig V) (req : http.Request) (P : GoMap Str)
    (r : http.Request) (hr : r ∈ setHeaders m req P) :
    ∃ order : List (Str × Str), order.Perm (mergeMaps m.Defaults.Headers P) ∧
      r = defaultContentType (applyHeaders req order) := by
  simp only [setHeaders, List.mem_map] at hr
  obtain ⟨order, ho, rfl⟩ := hr
  exact ⟨order, (mem_rangeOrders _ _).1 ho, rfl⟩

/-! ## Query strings -/

theorem url.escapeByte_query_shape (c : Byte) :
    (url.escapeByte .encodeQueryComponent c = [c] ∧ c ≠ ch '%' ∧ c ≠ ch '+') ∨
    (url.escapeByte .encodeQueryComponent c = [ch '+'] ∧ c = ch ' ') ∨
    (url.escapeByte .encodeQueryComponent c =
        [ch '%', url.upperhex (c.val / 16), url.upperhex (c.val % 16)] ∧
      url.ishex (url.upperhex (c.val / 16)) = true ∧
      url.ishex (url.upperhex (c.val % 16)) = true ∧
      url.unhex (url.upperhex (c.val / 16)) * 16 + url.unhex (url.upperhex (c.val % 16)) = c) := by
  revert c
  decide!

theorem url.escapeByte_query_not_mem (c : Byte) :
    ch '&' ∉ url.escapeByte .encodeQueryComponent c ∧
    ch '=' ∉ url.escapeByte .encodeQueryComponent c ∧
    ch ';' ∉ url.escapeByte .encodeQueryComponent c := by
  revert c
  decide!

theorem url.unescape_escapeByte (c : Byte) (rest : Str) :
    url.unescapeCheck .encodeQueryComponent (url.escapeByte .encodeQueryComponent c ++ rest) =
      url.unescapeCheck .encodeQueryComponent rest ∧
    url.unescapeDecode .encodeQueryComponent (url.escapeByte .encodeQueryComponent c ++ rest) =
      c :: url.unescapeDecode .encodeQueryComponent rest := by
  have hpp : ¬ (ch '+' = ch '%') := by decide
  rcases url.escapeByte_query_shape c with ⟨h, h1, h2⟩ | ⟨h, h1⟩ | ⟨h, h1, h2, h3⟩
  · rw [h, List.singleton_append]
    constructor
    · rw [url.unescapeCheck.eq_def]
      simp [h1, h2]
    · rw [url.unescapeDecode.eq_def]
      simp [h1, h2]
  · rw [h, List.singleton_append]
    constructor
    · rw [url.unescapeCheck.eq_def]
      simp [hpp]
    · rw [url.unescapeDecode.eq_def]
      simp [h1, hpp]
  · rw [h]
    constructor
    · rw [url.unescapeCheck.eq_def]
      simp [h1, h2]
    · rw [url.unescapeDecode.eq_def]
      simp [h3]

theorem url.QueryUnescape_QueryEscape (s : Str) :
    url.QueryUnescape (url.QueryEscape s) = .ok s := by
  have h : url.unescapeCheck .encodeQueryComponent (url.escape s .encodeQueryComponent) = none ∧
      url.unescapeDecode .encodeQueryComponent (url.escape s .encodeQueryComponent) = s := by
    induction s with
    | nil => exact ⟨rfl, rfl⟩
    | cons c rest ih =>
      have h := url.unescape_escapeByte c (url.escape rest .encodeQueryComponent)
      simp only [url.escape, List.flatMap_cons] at ih h ⊢
      rw [h.1, h.2, ih.1, ih.2]
      exact ⟨rfl, rfl⟩
  simp only [url.QueryUnescape, url.QueryEscape, url.unescape, h.1, h.2]

theorem url.QueryEscape_not_mem (s : Str) :
    ch '&' ∉ url.QueryEscape s ∧ ch '=' ∉ url.QueryEscape s ∧ ch ';' ∉ url.QueryEscape s := by
  simp only [url.QueryEscape, url.escape, List.mem_flatMap, not_exists, not_and]
  exact ⟨fun c _ => (url.escapeByte_query_not_mem c).1,
    fun c _ => (url.escapeByte_query_not_mem c).2.1,
    fun c _ => (url.escapeByte_query_not_mem c).2.2⟩

theorem cut_append (sep : Byte) (a w : Str) (h : sep ∉ a) :
    cut sep (a ++ sep :: w) = (a, w, true) := by
  induction a with
  | nil => simp [cut]
  | cons c rest ih =>
    simp only [List.mem_cons, not_or] at h
    simp [cut, Ne.symm h.1, ih h.2]

theorem url.parseQueryStep_encodePair (acc : url.Values × Option String) (k v : Str) :
    url.parseQueryStep acc (url.encodePair k v) = (url.Values.Add acc.1 k v, acc.2) := by
  have hk := url.QueryEscape_not_mem k
  have hv := url.QueryEscape_not_mem v
  have hsemi : ch ';' ∉ url.encodePair k v := by
    simp only [url.encodePair, List.mem_append, List.mem_cons, not_or]
    exact ⟨hk.2.2, by decide, hv.2.2⟩
  have hne : url.encodePair k v ≠ [] := by simp [url.encodePair]
  have hcut : cut (ch '=') (url.encodePair k v) = (url.QueryEscape k, url.QueryEscape v, true) :=
    cut_append _ _ _ hk.2.1
  simp only [url.parseQueryStep, if_neg hsemi, if_neg hne, hcut, url.QueryUnescape_QueryEscape]

theorem url.foldl_parseQueryStep (pairs : List (Str × Str)) (acc : url.Values × Option String) :
    (pairs.map fun p => url.encodePair p.1 p.2).foldl url.parseQueryStep acc =
      (pairs.foldl (fun q p => url.Values.Add q p.1 p.2) acc.1, acc.2) := by
  induction pairs generalizing acc with
  | nil => rfl
  | cons p rest ih =>
    simp only [List.map_cons, List.foldl_cons, url.parseQueryStep_encodePair, ih]

theorem joinAmp_eq_intercalate (l : List Str) : joinAmp l = [ch '&'].intercalate l := by
  induction l with
  | nil => rfl
  | cons s t ih =>
    cases t with
    | nil => simp [joinAmp, List.intercalate, List.intersperse]
    | cons s2 t2 =>
      simp only [joinAmp, ih, List.intercalate, List.intersperse, List.flatten_cons,
        List.singleton_append]

theorem url.encodePair_not_mem (k v : Str) : ch '&' ∉ url.encodePair k v := by
  simp only [url.encodePair, List.mem_append, List.mem_cons, not_or]
  exact ⟨(url.QueryEscape_not_mem k).1, by decide, (url.QueryEscape_not_mem v).1⟩

theorem url.ParseQuery_joinAmp (pairs : List (Str × Str)) :
    url.ParseQuery (joinAmp (pairs.map fun p => url.encodePair p.1 p.2)) =
      (pairs.foldl (fun q p => url.Values.Add q p.1 p.2) [], none) := by
  cases hp : pairs with
  | nil => rfl
  | cons p rest =>
    rw [← hp]
    have hne : (pairs.map fun p => url.encodePair p.1 p.2) ≠ [] := by simp [hp]
    have hx : ∀ l ∈ pairs.map (fun p => url.encodePair p.1 p.2), ch '&' ∉ l := by
      intro l hl
      obtain ⟨q, _, rfl⟩ := List.mem_map.1 hl
      exact url.encodePair_not_mem q.1 q.2
    have hsplit : ([ch '&'].intercalate (pairs.map fun p => url.encodePair p.1 p.2)).splitOn
        (ch '&') = pairs.map fun p => url.encodePair p.1 p.2 :=
      List.splitOn_intercalate _ (ch '&') hx hne
    rw [url.ParseQuery, joinAmp_eq_intercalate, hsplit, url.foldl_parseQueryStep]

theorem foldl_amp (l : List Str) (buf : Str) (hbuf : buf ≠ []) :
    l.foldl (fun buf seg => (if buf.length > 0 then buf ++ [ch '&'] else buf) ++ seg) buf =
      buf ++ l.flatMap (fun seg => ch '&' :: seg) := by
  induction l generalizing buf with
  | nil => simp
  | cons s t ih =>
    have hl : buf.length > 0 := List.length_pos.2 hbuf
    simp only [List.foldl_cons, hl, if_true]
    rw [ih _ (by simp)]
    simp [List.append_assoc]

theorem joinAmp_cons (s : Str) (t : List Str) :
    joinAmp (s :: t) = s ++ t.flatMap (fun seg => ch '&' :: seg) := by
  induction t generalizing s with
  | nil => simp [joinAmp]
  | cons s2 t2 ih => simp only [joinAmp, ih, List.flatMap_cons, List.cons_append]

theorem foldl_amp_nil (l : List Str) (h : ∀ s ∈ l, s ≠ []) :
    l.foldl (fun buf seg => (if buf.length > 0 then buf ++ [ch '&'] else buf) ++ seg) [] =
      joinAmp l := by
  cases l with
  | nil => rfl
  | cons s t =>
    simp only [List.foldl_cons, List.length_nil, gt_iff_lt, Nat.lt_irrefl, if_false,
      List.nil_append]
    rw [foldl_amp t s (h s (by simp)), joinAmp_cons]

theorem foldl_flatMap_eq {α β γ : Type} (l : List α) (F : α → List β) (g : γ → β → γ)
    (init : γ) :
    (l.flatMap F).foldl g init = l.foldl (fun acc a => (F a).foldl g acc) init := by
  induction l generalizing init with
  | nil => rfl
  | cons a rest ih => simp only [List.flatMap_cons, List.foldl_append, List.foldl_cons, ih]

theorem url.encodeKey_eq (k buf : Str) (vs : List Str) :
    url.encodeKey (url.QueryEscape k) buf vs =
      (vs.map fun x => url.encodePair k x).foldl
        (fun buf seg => (if buf.length > 0 then buf ++ [ch '&'] else buf) ++ seg) buf := by
  simp only [url.encodeKey, List.foldl_map, url.encodePair, List.append_assoc,
    List.singleton_append]

theorem url.Encode_eq (v : url.Values) :
    url.Values.Encode v = joinAmp ((url.Values.pairs v).map fun p => url.encodePair p.1 p.2) := by
  rw [← foldl_amp_nil]
  · simp only [url.Values.Encode, url.Values.pairs, url.encodeKey_eq, List.map_flatMap,
      List.map_map, foldl_flatMap_eq]
    rfl
  · intro s hs
    obtain ⟨q, _, rfl⟩ := List.mem_map.1 hs
    simp [url.encodePair]

theorem url.ParseQuery_Encode (v : url.Values) :
    url.ParseQuery (url.Values.Encode v) =
      ((url.Values.pairs v).foldl (fun q p => url.Values.Add q p.1 p.2) [], none) := by
  rw [url.Encode_eq, url.ParseQuery_joinAmp]

theorem url.foldl_Add_fresh (l : List (Str × Str)) (acc : url.Values)
    (hnd : (GoMap.keys l).Nodup) (hdis : ∀ kv ∈ l, kv.1 ∉ GoMap.keys acc) :
    l.foldl (fun q p => url.Values.Add q p.1 p.2) acc =
      acc ++ l.map (fun kv => (kv.1, [kv.2])) := by
  induction l generalizing acc with
  | nil => simp
  | cons x rest ih =>
    have hx : x.1 ∉ GoMap.keys acc := hdis x (by simp)
    have hnd' : (GoMap.keys rest).Nodup := (List.nodup_cons.1 hnd).2
    have hx' : x.1 ∉ GoMap.keys rest := (List.nodup_cons.1 hnd).1
    have hadd : url.Values.Add acc x.1 x.2 = acc ++ [(x.1, [x.2])] := by
      simp only [url.Values.Add, (GoMap.get_eq_none acc x.1).2 hx, Option.getD_none,
        List.nil_append]
      exact GoMap.set_of_not_mem _ _ _ hx
    rw [List.foldl_cons, hadd, ih _ hnd']
    · simp
    · intro kv hkv
      simp only [GoMap.keys, List.map_append, List.map_cons, List.map_nil, List.mem_append,
        List.mem_singleton, not_or]
      refine ⟨hdis kv (by simp [hkv]), ?_⟩
      intro he
      exact hx' (he ▸ GoMap.mem_keys_of_mem (v := kv.2) hkv)

theorem GoMap.get_perm {T : Type} (l m : GoMap T) (h : l.Perm m) (hnd : (GoMap.keys m).Nodup)
    (k : Str) : GoMap.get l k = GoMap.get m k := by
  have hnd' : (GoMap.keys l).Nodup := (List.Perm.nodup_iff (h.map Prod.fst)).2 hnd
  apply Option.ext
  intro v
  rw [Option.mem_def, Option.mem_def, ← GoMap.mem_iff_get l hnd', ← GoMap.mem_iff_get m hnd]
  exact h.mem_iff

theorem GoMap.get_map_val {T U : Type} (l : GoMap T) (g : T → U) (k : Str) :
    GoMap.get (l.map fun kv => (kv.1, g kv.2)) k = (GoMap.get l k).map g := by
  induction l with
  | nil => rfl
  | cons x rest ih =>
    by_cases h : x.1 = k <;> simp [GoMap.get, h, ih]

theorem GoMap.get_map_key {T : Type} (l : List Str) (f : Str → T) (k : Str) :
    GoMap.get (l.map fun a => (a, f a)) k = if k ∈ l then some (f k) else none := by
  induction l with
  | nil => rfl
  | cons a rest ih =>
    by_cases h : a = k
    · simp [GoMap.get, h]
    · simp [GoMap.get, h, ih, Ne.symm h]

theorem url.sortStrings_perm (l : List Str) : (url.sortStrings l).Perm l :=
  List.perm_insertionSort _ l

theorem url.pairs_single (order : List (Str × Str)) :
    url.Values.pairs (order.map fun kv => (kv.1, [kv.2])) =
      (url.sortStrings (GoMap.keys order)).map fun k => (k, (GoMap.get order k).getD []) := by
  have hkeys : GoMap.keys (order.map fun kv => (kv.1, [kv.2])) = GoMap.keys order := by
    simp [GoMap.keys, List.map_map, Function.comp_def]
  have hall : ∀ s : List Str, (∀ k ∈ s, k ∈ GoMap.keys order) →
      (s.flatMap fun k =>
        ((GoMap.get (order.map fun kv => (kv.1, [kv.2])) k).getD []).map fun x => (k, x)) =
        s.map fun k => (k, (GoMap.get order k).getD []) := by
    intro s hs
    induction s with
    | nil => rfl
    | cons a rest ih =>
      have ha : a ∈ GoMap.keys order := hs a (by simp)
      obtain ⟨v, hv⟩ := Option.ne_none_iff_exists'.1
        (fun h => (GoMap.get_eq_none order a).1 h ha)
      have hg := GoMap.get_map_val order (fun x : Str => [x]) a
      simp only [List.flatMap_cons, List.map_cons, ih (fun k hk => hs k (by simp [hk])),
        hg, hv, Option.map_some', Option.getD_some, List.map_nil, List.singleton_append]
  simp only [url.Values.pairs, hkeys]
  exact hall _ (fun k hk => (url.sortStrings_perm _).mem_iff.1 hk)

theorem url.ParseQuery_single (order : List (Str × Str)) (hnd : (GoMap.keys order).Nodup) :
    ∃ vals : url.Values,
      url.ParseQuery (url.Values.Encode (order.map fun kv => (kv.1, [kv.2]))) = (vals, none) ∧
      (GoMap.keys vals).Nodup ∧
      ∀ k, GoMap.get vals k = (GoMap.get order k).map fun v => [v] := by
  have hS : (url.sortStrings (GoMap.keys order)).Nodup :=
    (List.Perm.nodup_iff (url.sortStrings_perm _)).2 hnd
  have hkeys : GoMap.keys ((url.sortStrings (GoMap.keys order)).map
      fun k => (k, (GoMap.get order k).getD [])) = url.sortStrings (GoMap.keys order) := by
    simp [GoMap.keys, List.map_map, Function.comp_def]
  have hfold := url.foldl_Add_fresh
    ((url.sortStrings (GoMap.keys order)).map fun k => (k, (GoMap.get order k).getD [])) []
    (by rw [hkeys]; exact hS) (by intro kv _; simp [GoMap.keys])
  refine ⟨_, by rw [url.ParseQuery_Encode, url.pairs_single, hfold], ?_, ?_⟩
  · simp only [List.nil_append, GoMap.keys, List.map_map, Function.comp_def, List.map_id']
    exact hS
  · intro k
    simp only [List.nil_append, List.map_map, Function.comp_def]
    rw [GoMap.get_map_key (url.sortStrings (GoMap.keys order))
      (fun a => [(GoMap.get order a).getD []]) k]
    by_cases hk : k ∈ GoMap.keys order
    · obtain ⟨v, hv⟩ := Option.ne_none_iff_exists'.1
        (fun h => (GoMap.get_eq_none order k).1 h hk)
      rw [if_pos ((url.sortStrings_perm _).mem_iff.2 hk), hv]
      rfl
    · rw [if_neg (fun h => hk ((url.sortStrings_perm _).mem_iff.1 h)),
        (GoMap.get_eq_none order k).2 hk]
      rfl

theorem setQueryParams_ne_nil {V : Type} (m : MigMig V) (req : http.Request) (P : GoMap Str) :
    setQueryParams m req P ≠ [] := by
  simp [setQueryParams, rangeOrders_ne_nil]

theorem mem_setQueryParams {V : Type} (m : MigMig V) (req : http.Request) (P : GoMap Str)
    (r : http.Request) (hr : r ∈ setQueryParams m req P) :
    ∃ (order : List (Str × Str)) (q : Str),
      order.Perm (mergeMaps m.Defaults.QueryParams P) ∧
      q = url.Values.Encode
        (order.foldl (fun q kv => url.Values.Add q kv.1 kv.2) req.URL.Query) ∧
      r = { req with URL := { req.URL with RawQuery := q } } := by
  simp only [setQueryParams, List.mem_map] at hr
  obtain ⟨order, ho, rfl⟩ := hr
  exact ⟨order, _, (mem_rangeOrders _ _).1 ho, rfl, rfl⟩

/-! ## Query strings: values added to an existing query -/

theorem url.Values.get_Add (q : url.Values) (k v k' : Str) :
    GoMap.get (url.Values.Add q k v) k' =
      if k = k' then some ((GoMap.get q k).getD [] ++ [v]) else GoMap.get q k' := by
  simp only [url.Values.Add, GoMap.get_set]

theorem url.Values.nodup_Add (q : url.Values) (k v : Str) (h : (GoMap.keys q).Nodup) :
    (GoMap.keys (url.Values.Add q k v)).Nodup :=
  GoMap.nodup_set _ _ _ h

theorem url.nodup_foldl_Add (l : List (Str × Str)) (acc : url.Values)
    (h : (GoMap.keys acc).Nodup) :
    (GoMap.keys (l.foldl (fun q p => url.Values.Add q p.1 p.2) acc)).Nodup := by
  induction l generalizing acc with
  | nil => exact h
  | cons x rest ih => exact ih _ (url.Values.nodup_Add _ _ _ h)

theorem url.nodup_parseQueryStep (acc : url.Values × Option String) (key : Str)
    (h : (GoMap.keys acc.1).Nodup) : (GoMap.keys (url.parseQueryStep acc key).1).Nodup := by
  unfold url.parseQueryStep
  split
  · exact h
  · split
    · exact h
    · simp only
      split
      · exact h
      · split
        · exact h
        · exact url.Values.nodup_Add _ _ _ h

theorem url.nodup_ParseQuery (query : Str) : (GoMap.keys (url.ParseQuery query).1).Nodup := by
  unfold url.ParseQuery
  have hgen : ∀ (l : List Str) (acc : url.Values × Option String),
      (GoMap.keys acc.1).Nodup → (GoMap.keys (l.foldl url.parseQueryStep acc).1).Nodup := by
    intro l
    induction l with
    | nil => exact fun _ h => h
    | cons x rest ih => exact fun acc h => ih _ (url.nodup_parseQueryStep acc x h)
  exact hgen _ _ List.nodup_nil

theorem url.getD_foldl_Add (l : List (Str × Str)) (acc : url.Values) (k : Str) :
    (GoMap.get (l.foldl (fun q p => url.Values.Add q p.1 p.2) acc) k).getD [] =
      (GoMap.get acc k).getD [] ++ (l.filter fun p => p.1 = k).map Prod.snd := by
  induction l generalizing acc with
  | nil => simp
  | cons x rest ih =>
    rw [List.foldl_cons, ih, url.Values.get_Add]
    by_cases h : x.1 = k
    · subst h
      simp [List.filter_cons]
    · simp [List.filter_cons, h]

theorem url.get_foldl_Add (l : List (Str × Str)) (hnd : (GoMap.keys l).Nodup)
    (acc : url.Values) (k : Str) :
    GoMap.get (l.foldl (fun q p => url.Values.Add q p.1 p.2) acc) k =
      match GoMap.get l k with
      | none => GoMap.get acc k
      | some v => some ((GoMap.get acc k).getD [] ++ [v]) := by
  induction l generalizing acc with
  | nil => rfl
  | cons x rest ih =>
    have hnd' : (GoMap.keys rest).Nodup := (List.nodup_cons.1 hnd).2
    have hx : x.1 ∉ GoMap.keys rest := (List.nodup_cons.1 hnd).1
    rw [List.foldl_cons, ih hnd', url.Values.get_Add]
    by_cases h : x.1 = k
    · subst h
      simp [GoMap.get, (GoMap.get_eq_none rest x.1).2 hx]
    · simp only [GoMap.get, h, if_false]

theorem url.filter_pairs (s : List Str) (hs : s.Nodup) (f : Str → List Str) (k : Str) :
    ((s.flatMap fun k' => (f k').map fun x => (k', x)).filter fun p => p.1 = k).map Prod.snd =
      if k ∈ s then f k else [] := by
  induction s with
  | nil => rfl
  | cons a rest ih =>
    have ha : a ∉ rest := (List.nodup_cons.1 hs).1
    rw [List.flatMap_cons, List.filter_append, List.map_append, ih (List.nodup_cons.1 hs).2]
    by_cases h : a = k
    · subst h
      simp [ha, List.filter_map, Function.comp_def]
    · have hk : k ≠ a := Ne.symm h
      simp [h, hk, List.filter_map, Function.comp_def]

theorem url.ParseQuery_Encode_values (v : url.Values) (hnd : (GoMap.keys v).Nodup) (k : Str) :
    (url.ParseQuery (url.Values.Encode v)).2 = none ∧
    (GoMap.get (url.ParseQuery (url.Values.Encode v)).1 k).getD [] = (GoMap.get v k).getD [] := by
  rw [url.ParseQuery_Encode]
  refine ⟨rfl, ?_⟩
  simp only
  rw [url.getD_foldl_Add]
  have hS : (url.sortStrings (GoMap.keys v)).Nodup :=
    (List.Perm.nodup_iff (url.sortStrings_perm _)).2 hnd
  simp only [GoMap.get, Option.getD_none, List.nil_append, url.Values.pairs]
  rw [url.filter_pairs _ hS (fun k' => (GoMap.get v k').getD []) k]
  by_cases hk : k ∈ GoMap.keys v
  · rw [if_pos ((url.sortStrings_perm _).mem_iff.2 hk)]
  · rw [if_neg (fun h => hk ((url.sortStrings_perm _).mem_iff.1 h)),
      (GoMap.get_eq_none v k).2 hk]
    rfl

theorem setQueryParams_values {V : Type} (m : MigMig V) (req : http.Request) (P : GoMap Str)
    (r : http.Request) (hr : r ∈ setQueryParams m req P) (k : Str) :
    (url.ParseQuery r.URL.RawQuery).2 = none ∧
    (GoMap.get r.URL.Query k).getD [] =
      (GoMap.get req.URL.Query k).getD [] ++
        (match GoMap.get (mergeMaps m.Defaults.QueryParams P) k with
         | none => []
         | some v => [v]) := by
  obtain ⟨order, q, hperm, rfl, rfl⟩ := mem_setQueryParams m req P r hr
  have hnd : (GoMap.keys order).Nodup :=
    (List.Perm.nodup_iff (hperm.map Prod.fst)).2 (mergeMaps_nodup _ _)
  have hq0 : (GoMap.keys req.URL.Query).Nodup := url.nodup_ParseQuery _
  have hv := url.ParseQuery_Encode_values
    (order.foldl (fun q kv => url.Values.Add q kv.1 kv.2) req.URL.Query)
    (url.nodup_foldl_Add _ _ hq0) k
  refine ⟨hv.1, ?_⟩
  simp only [url.URL.Query] at hv ⊢
  rw [hv.2, url.get_foldl_Add order hnd, GoMap.get_perm order _ hperm (mergeMaps_nodup _ _)]
  cases GoMap.get (mergeMaps m.Defaults.QueryParams P) k <;> simp

theorem mergeMaps_get_none (D P : GoMap Str) (k : Str) (hD : k ∉ GoMap.keys D)
    (hP : k ∉ GoMap.keys P) : GoMap.get (mergeMaps D P) k = none := by
  have hgen : ∀ (l m0 : GoMap Str), k ∉ GoMap.keys l → GoMap.get m0 k = none →
      GoMap.get (l.foldl (fun m kv => GoMap.set m kv.1 kv.2) m0) k = none := by
    intro l
    induction l with
    | nil => exact fun _ _ h => h
    | cons x rest ih =>
      intro m0 hl h0
      simp only [GoMap.keys, List.map_cons, List.mem_cons, not_or] at hl
      refine ih _ hl.2 ?_
      rw [GoMap.get_set, if_neg (Ne.symm hl.1), h0]
  exact hgen P _ hP (hgen D [] hD rfl)

/-! ## Iteration order -/

theorem url.strLe_refl (a : Str) : url.strLe a a = true := by
  induction a with
  | nil => rfl
  | cons x xs ih => simp [url.strLe, ih]

theorem url.strLe_total (a b : Str) : url.strLe a b = true ∨ url.strLe b a = true := by
  induction a generalizing b with
  | nil => exact Or.inl rfl
  | cons x xs ih =>
    cases b with
    | nil => exact Or.inr rfl
    | cons y ys =>
      simp only [url.strLe, Bool.or_eq_true, Bool.and_eq_true, decide_eq_true_eq]
      rcases lt_trichotomy x y with h | h | h
      · exact Or.inl (Or.inl h)
      · subst h
        rcases ih ys with h2 | h2
        · exact Or.inl (Or.inr ⟨rfl, h2⟩)
        · exact Or.inr (Or.inr ⟨rfl, h2⟩)
      · exact Or.inr (Or.inl h)

theorem url.strLe_trans (a b c : Str) (h1 : url.strLe a b = true) (h2 : url.strLe b c = true) :
    url.strLe a c = true := by
  induction a generalizing b c with
  | nil => rfl
  | cons x xs ih =>
    cases b with
    | nil => simp [url.strLe] at h1
    | cons y ys =>
      cases c with
      | nil => simp [url.strLe] at h2
      | cons z zs =>
        simp only [url.strLe, Bool.or_eq_true, Bool.and_eq_true, decide_eq_true_eq] at h1 h2 ⊢
        rcases h1 with h1 | ⟨h1, h1'⟩
        · rcases h2 with h2 | ⟨h2, _⟩
          · exact Or.inl (lt_trans h1 h2)
          · exact Or.inl (h2 ▸ h1)
        · rcases h2 with h2 | ⟨h2, h2'⟩
          · exact Or.inl (h1 ▸ h2)
          · exact Or.inr ⟨h1.trans h2, ih ys zs h1' h2'⟩

theorem url.strLe_antisymm (a b : Str) (h1 : url.strLe a b = true) (h2 : url.strLe b a = true) :
    a = b := by
  induction a generalizing b with
  | nil =>
    cases b with
    | nil => rfl
    | cons y ys => simp [url.strLe] at h2
  | cons x xs ih =>
    cases b with
    | nil => simp [url.strLe] at h1
    | cons y ys =>
      simp only [url.strLe, Bool.or_eq_true, Bool.and_eq_true, decide_eq_true_eq] at h1 h2
      rcases h1 with h1 | ⟨h1, h1'⟩
      · rcases h2 with h2 | ⟨h2, _⟩
        · exact absurd h1 (lt_asymm h2)
        · exact absurd h1 (h2 ▸ lt_irrefl _)
      · rcases h2 with h2 | ⟨_, h2'⟩
        · exact absurd h2 (h1 ▸ lt_irrefl _)
        · rw [h1, ih ys h1' h2']

theorem url.sortStrings_congr (l1 l2 : List Str) (h : l1.Perm l2) :
    url.sortStrings l1 = url.sortStrings l2 := by
  haveI : IsTotal Str url.StrLe := ⟨url.strLe_total⟩
  haveI : IsTrans Str url.StrLe := ⟨url.strLe_trans⟩
  haveI : IsAntisymm Str url.StrLe := ⟨url.strLe_antisymm⟩
  exact List.eq_of_perm_of_sorted
    (((url.sortStrings_perm l1).trans h).trans (url.sortStrings_perm l2).symm)
    (List.sorted_insertionSort url.StrLe l1) (List.sorted_insertionSort url.StrLe l2)

theorem url.Encode_congr (v1 v2 : url.Values) (h1 : (GoMap.keys v1).Nodup)
    (h2 : (GoMap.keys v2).Nodup) (h : ∀ k, GoMap.get v1 k = GoMap.get v2 k) :
    url.Values.Encode v1 = url.Values.Encode v2 := by
  have hperm : (GoMap.keys v1).Perm (GoMap.keys v2) := by
    rw [List.perm_ext_iff_of_nodup h1 h2]
    intro k
    constructor
    · intro hk
      by_contra hc
      exact (GoMap.get_eq_none v1 k).1 ((h k).trans ((GoMap.get_eq_none v2 k).2 hc)) hk
    · intro hk
      by_contra hc
      exact (GoMap.get_eq_none v2 k).1 ((h k).symm.trans ((GoMap.get_eq_none v1 k).2 hc)) hk
  simp only [url.Values.Encode, url.sortStrings_congr _ _ hperm, h]

theorem setQueryParams_unique {V : Type} (m : MigMig V) (req : http.Request) (P : GoMap Str)
    (r1 r2 : http.Request) (h1 : r1 ∈ setQueryParams m req P)
    (h2 : r2 ∈ setQueryParams m req P) : r1 = r2 := by
  obtain ⟨o1, q1, hp1, rfl, rfl⟩ := mem_setQueryParams m req P r1 h1
  obtain ⟨o2, q2, hp2, rfl, rfl⟩ := mem_setQueryParams m req P r2 h2
  have hn1 : (GoMap.keys o1).Nodup :=
    (List.Perm.nodup_iff (hp1.map Prod.fst)).2 (mergeMaps_nodup _ _)
  have hn2 : (GoMap.keys o2).Nodup :=
    (List.Perm.nodup_iff (hp2.map Prod.fst)).2 (mergeMaps_nodup _ _)
  have hq0 : (GoMap.keys req.URL.Query).Nodup := url.nodup_ParseQuery _
  have he := url.Encode_congr
    (o1.foldl (fun q kv => url.Values.Add q kv.1 kv.2) req.URL.Query)
    (o2.foldl (fun q kv => url.Values.Add q kv.1 kv.2) req.URL.Query)
    (url.nodup_foldl_Add _ _ hq0) (url.nodup_foldl_Add _ _ hq0)
    (by
      intro k
      rw [url.get_foldl_Add o1 hn1, url.get_foldl_Add o2 hn2,
        GoMap.get_perm o1 _ hp1 (mergeMaps_nodup _ _),
        GoMap.get_perm o2 _ hp2 (mergeMaps_nodup _ _)])
  rw [he]

theorem applyHeaders_fields (req : http.Request) (order : List (Str × Str)) :
    (applyHeaders req order).Method = req.Method ∧ (applyHeaders req order).URL = req.URL ∧
    (applyHeaders req order).Body = req.Body ∧ (applyHeaders req order).Host = req.Host := by
  induction order using List.reverseRecOn with
  | nil => exact ⟨rfl, rfl, rfl, rfl⟩
  | append_singleton l x ih =>
    simp only [applyHeaders, List.foldl_append, List.foldl_cons, List.foldl_nil] at ih ⊢
    exact ih

theorem defaultContentType_fields (req : http.Request) :
    (defaultContentType req).Method = req.Method ∧ (defaultContentType req).URL = req.URL ∧
    (defaultContentType req).Body = req.Body ∧ (defaultContentType req).Host = req.Host := by
  unfold defaultContentType
  split <;> exact ⟨rfl, rfl, rfl, rfl⟩

theorem applyHeaders_get_congr (req : http.Request) (merged o1 o2 : List (Str × Str))
    (hnd : (GoMap.keys merged).Nodup) (hp1 : o1.Perm merged) (hp2 : o2.Perm merged)
    (hcol : ∀ kv ∈ merged, ∀ kv' ∈ merged,
      http.CanonicalMIMEHeaderKey kv.1 = http.CanonicalMIMEHeaderKey kv'.1 → kv.1 = kv'.1)
    (c : Str) :
    GoMap.get (applyHeaders req o1).Header c = GoMap.get (applyHeaders req o2).Header c := by
  have hn1 : (GoMap.keys o1).Nodup := (List.Perm.nodup_iff (hp1.map Prod.fst)).2 hnd
  have hn2 : (GoMap.keys o2).Nodup := (List.Perm.nodup_iff (hp2.map Prod.fst)).2 hnd
  by_cases hex : ∃ kv ∈ merged, http.CanonicalMIMEHeaderKey kv.1 = c
  · obtain ⟨kv, hkv, rfl⟩ := hex
    rw [applyHeaders_get req o1 hn1 kv.1 kv.2 (hp1.mem_iff.2 hkv)
        (fun kv' h' hc => hcol kv' (hp1.mem_iff.1 h') kv hkv hc),
      applyHeaders_get req o2 hn2 kv.1 kv.2 (hp2.mem_iff.2 hkv)
        (fun kv' h' hc => hcol kv' (hp2.mem_iff.1 h') kv hkv hc)]
  · have hno : ∀ kv ∈ merged, http.CanonicalMIMEHeaderKey kv.1 ≠ c :=
      fun kv hkv hc => hex ⟨kv, hkv, hc⟩
    rw [applyHeaders_get_other req o1 c (fun kv h' => hno kv (hp1.mem_iff.1 h')),
      applyHeaders_get_other req o2 c (fun kv h' => hno kv (hp2.mem_iff.1 h'))]

theorem defaultContentType_get_congr (r1 r2 : http.Request)
    (h : ∀ c, GoMap.get r1.Header c = GoMap.get r2.Header c) (c : Str) :
    GoMap.get (defaultContentType r1).Header c = GoMap.get (defaultContentType r2).Header c := by
  have hG : http.Header.Get r1.Header (str "Content-Type") =
      http.Header.Get r2.Header (str "Content-Type") := by
    simp only [http.Header.Get, h]
  unfold defaultContentType
  rw [hG]
  split
  · simp only [http.Header.Set, GoMap.get_set, h]
  · exact h c

theorem setHeaders_congr {V : Type} (m : MigMig V) (req : http.Request) (P : GoMap Str)
    (hcol : ∀ kv ∈ mergeMaps m.Defaults.Headers P, ∀ kv' ∈ mergeMaps m.Defaults.Headers P,
      http.CanonicalMIMEHeaderKey kv.1 = http.CanonicalMIMEHeaderKey kv'.1 → kv.1 = kv'.1)
    (r1 r2 : http.Request) (h1 : r1 ∈ setHeaders m req P) (h2 : r2 ∈ setHeaders m req P) :
    r1.Method = r2.Method ∧ r1.URL = r2.URL ∧ r1.Body = r2.Body ∧ r1.Host = r2.Host ∧
    ∀ c, GoMap.get r1.Header c = GoMap.get r2.Header c := by
  obtain ⟨o1, hp1, rfl⟩ := mem_setHeaders m req P r1 h1
  obtain ⟨o2, hp2, rfl⟩ := mem_setHeaders m req P r2 h2
  have f1 := applyHeaders_fields req o1
  have f2 := applyHeaders_fields req o2
  have d1 := defaultContentType_fields (applyHeaders req o1)
  have d2 := defaultContentType_fields (applyHeaders req o2)
  refine ⟨by rw [d1.1, d2.1, f1.1, f2.1], by rw [d1.2.1, d2.2.1, f1.2.1, f2.2.1],
    by rw [d1.2.2.1, d2.2.2.1, f1.2.2.1, f2.2.2.1], by rw [d1.2.2.2, d2.2.2.2, f1.2.2.2, f2.2.2.2],
    ?_⟩
  exact defaultContentType_get_congr _ _
    (applyHeaders_get_congr req _ o1 o2 (mergeMaps_nodup _ _) hp1 hp2 hcol)

/-! ## URL resolution: the two branches -/

theorem getRequestURL_cases {V : Type} (m : MigMig V) (requestURL baseURL : Str) :
    getRequestURL m requestURL baseURL =
      match url.Parse (if requestURL = [] then m.Defaults.URL else requestURL) with
      | .error err => .error err
      | .ok u =>
        if u.Scheme ≠ [] then .ok u.String
        else
          match url.Parse (if baseURL = [] then m.Defaults.BaseURL else baseURL) with
          | .error err => .error err
          | .ok b =>
            .ok (url.URL.String
              { b with
                Path := path.Join b.Path
                  (if requestURL = [] then m.Defaults.URL else requestURL) }) := by
  unfold getRequestURL
  cases h : url.Parse (if requestURL = [] then m.Defaults.URL else requestURL) with
  | error e => simp only [h]
  | ok u =>
    by_cases hs : u.Scheme = []
    · simp [h, url.URL.IsAbs, hs]
    · simp [h, url.URL.IsAbs, hs]

theorem path.Join_of_ne_nil (a b : Str) (hb : b ≠ []) :
    path.Join a b = path.Clean (if a = [] then b else a ++ ch '/' :: b) := by
  have hl : ¬ (a.length + b.length = 0) := by
    have := List.length_pos.2 hb
    omega
  by_cases ha : a = []
  · subst ha
    simp [path.Join, hb]
  · have hla : a.length > 0 := List.length_pos.2 ha
    simp [path.Join, hl, ha, hla]

theorem url.Parse_error (s : Str) (e : Error) (h : url.Parse s = .error e) :
    ∃ a r, e = .urlError a r := by
  unfold url.Parse at h
  simp only at h
  cases hp : url.parse (cut (ch '#') s).1 false with
  | error e0 =>
    simp only [hp, Except.error.injEq] at h
    exact ⟨_, _, h.symm⟩
  | ok u =>
    simp only [hp] at h
    by_cases hf : (cut (ch '#') s).2.1 = []
    · simp [hf] at h
    · simp only [hf, if_false] at h
      cases hs : url.URL.setFragment u (cut (ch '#') s).2.1 with
      | error e1 =>
        simp only [hs, Except.error.injEq] at h
        exact ⟨_, _, h.symm⟩
      | ok u2 => simp [hs] at h

theorem getRequestURL_error {V : Type} (m : MigMig V) (requestURL baseURL : Str) (e : Error)
    (h : getRequestURL m requestURL baseURL = .error e) : ∃ a r, e = .urlError a r := by
  rw [getRequestURL_cases] at h
  cases hp : url.Parse (if requestURL = [] then m.Defaults.URL else requestURL) with
  | error e1 =>
    simp only [hp, Except.error.injEq] at h
    exact h ▸ url.Parse_error _ _ hp
  | ok p =>
    simp only [hp] at h
    split at h
    · cases h
    · cases hb : url.Parse (if baseURL = [] then m.Defaults.BaseURL else baseURL) with
      | error e1 =>
        simp only [hb, Except.error.injEq] at h
        exact h ▸ url.Parse_error _ _ hb
      | ok b => simp [hb] at h

theorem http.NewRequest_error (method rawURL : Str) (body : Option Str) (e : Error)
    (h : http.NewRequest method rawURL body = .error e) :
    (∃ r, e = .httpError r) ∨ ∃ a r, e = .urlError a r := by
  unfold http.NewRequest at h
  cases hv : http.validMethod (if method = [] then str "GET" else method) with
  | false =>
    simp only [hv, Bool.not_false, if_true, Except.error.injEq] at h
    exact Or.inl ⟨_, h.symm⟩
  | true =>
    cases hp : url.Parse rawURL with
    | error e1 =>
      simp only [hv, Bool.not_true, Bool.false_eq_true, if_false, hp, Except.error.injEq] at h
      exact Or.inr (h ▸ url.Parse_error _ _ hp)
    | ok u => simp [hv, hp] at h

theorem getRequestBody_error {V : Type} (marshal : Marshal V) (m : MigMig V) (body : GoMap V)
    (method : Str) (e : Error) (h : (getRequestBody marshal m body method).err = some e) :
    ∃ b, marshal b = .error e := by
  unfold getRequestBody at h
  by_cases hc : (if body.length = 0 then m.Defaults.Body else body).length = 0 ∨
      (!doesMethodAcceptBody method) = true
  · simp only [] at h
    rw [if_pos hc] at h
    cases h
  · simp only [] at h
    rw [if_neg hc] at h
    cases hm : marshal (if body.length = 0 then m.Defaults.Body else body) with
    | error e1 =>
      simp only [hm, Option.some.injEq] at h
      exact ⟨_, h ▸ hm⟩
    | ok content =>
      simp only [hm] at h
      cases h

/-! ## Memory: what a call leaves unchanged -/

theorem length_updateAt {α : Type} (l : List α) (i : Nat) (f : α → α) :
    (updateAt l i f).length = l.length := by
  induction l generalizing i with
  | nil => rfl
  | cons x xs ih =>
    cases i with
    | zero => rfl
    | succ i => simp [updateAt, ih]

theorem get?_updateAt {α : Type} (l : List α) (i : Nat) (f : α → α) (j : Nat) :
    (updateAt l i f).get? j = if j = i then (l.get? j).map f else l.get? j := by
  induction l generalizing i j with
  | nil => simp [updateAt]
  | cons x xs ih =>
    cases i with
    | zero =>
      cases j with
      | zero => simp [updateAt]
      | succ j => simp [updateAt]
    | succ i =>
      cases j with
      | zero => simp [updateAt]
      | succ j =>
        have h := ih i j
        simp only [List.get?] at h ⊢
        simp only [updateAt, List.get?, h, Nat.add_right_cancel_iff]

theorem Memory.Extends.refl {V : Type} (mem : Memory V) : mem.Extends mem :=
  ⟨rfl, rfl, Nat.le_refl _, fun _ _ => rfl⟩

theorem Memory.Extends.trans {V : Type} {m1 m2 m3 : Memory V} (h12 : m1.Extends m2)
    (h23 : m2.Extends m3) : m1.Extends m3 :=
  ⟨h23.1.trans h12.1, h23.2.1.trans h12.2.1, Nat.le_trans h12.2.2.1 h23.2.2.1,
    fun j hj => (h23.2.2.2 j (Nat.lt_of_lt_of_le hj h12.2.2.1)).trans (h12.2.2.2 j hj)⟩

theorem Memory.makeStrMap_extends {V : Type} (mem : Memory V) : mem.Extends mem.makeStrMap.1 :=
  ⟨rfl, rfl, by simp [Memory.makeStrMap], fun _ hj => by
    simp only [Memory.makeStrMap, List.get?_eq_getElem?]
    exact List.getElem?_append_left hj⟩

theorem Memory.setStr_extends {V : Type} (mem0 mem : Memory V) (h : mem0.Extends mem)
    (dst : Nat) (hdst : mem0.strMaps.length ≤ dst) (k v : Str) :
    mem0.Extends (mem.setStr dst k v) := by
  refine ⟨h.1, h.2.1, ?_, ?_⟩
  · simp only [Memory.setStr, length_updateAt]
    exact h.2.2.1
  · intro j hj
    have hne : j ≠ dst := by omega
    simp only [Memory.setStr, get?_updateAt, if_neg hne]
    exact h.2.2.2 j hj

theorem Memory.copyInto_extends {V : Type} (mem0 mem : Memory V) (h : mem0.Extends mem)
    (src : Option Nat) (dst : Nat) (hdst : mem0.strMaps.length ≤ dst) :
    mem0.Extends (mem.copyInto src dst) := by
  unfold Memory.copyInto
  generalize mem.strMap src = l
  induction l generalizing mem with
  | nil => exact h
  | cons x rest ih => exact ih _ (Memory.setStr_extends mem0 mem h dst hdst x.1 x.2)

theorem Memory.setQueryParams_extends {V : Type} (mem : Memory V) (mr : ClientRef)
    (req : http.Request) (queryParams : Option Nat) :
    ∀ p ∈ mem.setQueryParams mr req queryParams, mem.Extends p.2 := by
  intro p hp
  simp only [Memory.setQueryParams, List.mem_map] at hp
  obtain ⟨order, _, rfl⟩ := hp
  exact Memory.copyInto_extends _ _
    (Memory.copyInto_extends _ _ (Memory.makeStrMap_extends mem) _ _ (Nat.le_refl _)) _ _
    (Nat.le_refl _)

theorem Memory.setHeaders_extends {V : Type} (mem : Memory V) (mr : ClientRef)
    (req : http.Request) (headers : Option Nat) :
    ∀ p ∈ mem.setHeaders mr req headers, mem.Extends p.2 := by
  intro p hp
  simp only [Memory.setHeaders, List.mem_map] at hp
  obtain ⟨order, _, rfl⟩ := hp
  exact Memory.copyInto_extends _ _
    (Memory.copyInto_extends _ _ (Memory.makeStrMap_extends mem) _ _ (Nat.le_refl _)) _ _
    (Nat.le_refl _)

theorem Memory.Request_extends {V : Type} (marshal : Marshal V) (mem : Memory V)
    (mr : ClientRef) (c : Nat) : ∀ p ∈ mem.Request marshal mr c, mem.Extends p.2 := by
  intro p hp
  unfold Memory.Request at hp
  split at hp
  · simp only [List.mem_singleton] at hp
    subst hp
    exact Memory.Extends.refl mem
  · split at hp
    · simp only [List.mem_singleton] at hp
      subst hp
      exact Memory.Extends.refl mem
    · simp only at hp
      split at hp
      · simp only [List.mem_singleton] at hp
        subst hp
        exact Memory.Extends.refl mem
      · split at hp
        · simp only [List.mem_singleton] at hp
          subst hp
          exact Memory.Extends.refl mem
        · simp only [List.mem_flatMap, List.mem_map] at hp
          obtain ⟨p1, hp1, p2, hp2, rfl⟩ := hp
          exact (Memory.setQueryParams_extends mem mr _ _ p1 hp1).trans
            (Memory.setHeaders_extends p1.2 mr _ _ p2 hp2)

theorem Memory.cell_valid {V : Type} (mem : Memory V) (hv : mem.Valid) (a : Nat) :
    (∀ i, (mem.cell a).Headers = some i → i < mem.strMaps.length) ∧
    (∀ i, (mem.cell a).QueryParams = some i → i < mem.strMaps.length) := by
  unfold Memory.cell
  cases h : mem.configs.get? a with
  | none => exact ⟨fun i hi => (by cases hi), fun i hi => (by cases hi)⟩
  | some cell => exact hv cell (List.get?_mem h)

theorem Memory.Extends.strMap {V : Type} {m1 m2 : Memory V} (h : m1.Extends m2)
    (a : Option Nat) (ha : ∀ i, a = some i → i < m1.strMaps.length) :
    m2.strMap a = m1.strMap a := by
  cases a with
  | none => rfl
  | some i => simp only [Memory.strMap, h.2.2.2 i (ha i rfl)]

theorem Memory.Extends.cell {V : Type} {m1 m2 : Memory V} (h : m1.Extends m2) (a : Nat) :
    m2.cell a = m1.cell a := by
  simp only [Memory.cell, h.1]

theorem Memory.Extends.config {V : Type} {m1 m2 : Memory V} (h : m1.Extends m2)
    (hv : m1.Valid) (a : Nat) : m2.config a = m1.config a := by
  have hc := h.cell a
  have hval := Memory.cell_valid m1 hv a
  simp only [Memory.config, hc, h.strMap _ hval.1, h.strMap _ hval.2, Memory.bodyMap, h.2.1]

theorem Memory.Extends.valid {V : Type} {m1 m2 : Memory V} (h : m1.Extends m2)
    (hv : m1.Valid) : m2.Valid := by
  intro cell hcell
  rw [h.1] at hcell
  exact ⟨fun i hi => Nat.lt_of_lt_of_le ((hv cell hcell).1 i hi) h.2.2.1,
    fun i hi => Nat.lt_of_lt_of_le ((hv cell hcell).2 i hi) h.2.2.1⟩

theorem Memory.Request_ne_nil {V : Type} (marshal : Marshal V) (mem : Memory V)
    (mr : ClientRef) (c : Nat) : mem.Request marshal mr c ≠ [] := by
  unfold Memory.Request
  split
  · simp
  · split
    · simp
    · simp only
      split
      · simp
      · split
        · simp
        · rename_i req _
          have h1 : mem.setQueryParams mr req (mem.cell c).QueryParams ≠ [] := by
            simp [Memory.setQueryParams, rangeOrders_ne_nil]
          obtain ⟨p1, hp1⟩ := List.exists_mem_of_ne_nil _ h1
          have h2 : p1.2.setHeaders mr p1.1 (p1.2.cell c).Headers ≠ [] := by
            simp [Memory.setHeaders, rangeOrders_ne_nil]
          obtain ⟨p2, hp2⟩ := List.exists_mem_of_ne_nil _ h2
          intro hnil
          have hmem : ((⟨mr.Client.Do p2.1, [p2.1]⟩ : Outcome), p2.2) ∈
              (mem.setQueryParams mr req (mem.cell c).QueryParams).flatMap fun p1 =>
                (p1.2.setHeaders mr p1.1 (p1.2.cell c).Headers).map fun p2 =>
                  ((⟨mr.Client.Do p2.1, [p2.1]⟩ : Outcome), p2.2) :=
            List.mem_flatMap.2 ⟨p1, hp1, List.mem_map.2 ⟨p2, hp2, rfl⟩⟩
          rw [hnil] at hmem
          exact List.not_mem_nil _ hmem

/-! ## Memory: the results are those of the methods on values -/

theorem Memory.length_copyInto {V : Type} (mem : Memory V) (src : Option Nat) (dst : Nat) :
    (mem.copyInto src dst).strMaps.length = mem.strMaps.length := by
  unfold Memory.copyInto
  generalize mem.strMap src = l
  induction l generalizing mem with
  | nil => rfl
  | cons x rest ih =>
    rw [List.foldl_cons, ih]
    simp only [Memory.setStr, length_updateAt]

theorem Memory.strMap_setStr {V : Type} (mem : Memory V) (dst : Nat) (k v : Str)
    (h : dst < mem.strMaps.length) :
    (mem.setStr dst k v).strMap (some dst) = GoMap.set (mem.strMap (some dst)) k v := by
  simp only [Memory.strMap, Memory.setStr, get?_updateAt, if_true]
  cases hx : mem.strMaps.get? dst with
  | none => exact absurd (List.get?_eq_none.1 hx) (Nat.not_le.2 h)
  | some x => rfl

theorem Memory.strMap_copyInto {V : Type} (mem : Memory V) (src : Option Nat) (dst : Nat)
    (h : dst < mem.strMaps.length) :
    (mem.copyInto src dst).strMap (some dst) =
      (mem.strMap src).foldl (fun m kv => GoMap.set m kv.1 kv.2) (mem.strMap (some dst)) := by
  unfold Memory.copyInto
  generalize mem.strMap src = l
  induction l generalizing mem with
  | nil => rfl
  | cons x rest ih =>
    rw [List.foldl_cons, List.foldl_cons, ih _ (by simpa [Memory.setStr, length_updateAt] using h),
      Memory.strMap_setStr mem dst x.1 x.2 h]

theorem Memory.strMap_merged {V : Type} (mem : Memory V) (src1 src2 : Option Nat)
    (h1 : ∀ i, src1 = some i → i < mem.strMaps.length)
    (h2 : ∀ i, src2 = some i → i < mem.strMaps.length) :
    ((mem.makeStrMap.1.copyInto src1 mem.makeStrMap.2).copyInto src2 mem.makeStrMap.2).strMap
        (some mem.makeStrMap.2) = mergeMaps (mem.strMap src1) (mem.strMap src2) := by
  have hlen : mem.makeStrMap.2 < mem.makeStrMap.1.strMaps.length := by
    simp [Memory.makeStrMap]
  have hnew : mem.makeStrMap.1.strMap (some mem.makeStrMap.2) = [] := by
    simp [Memory.strMap, Memory.makeStrMap]
  have e0 := Memory.makeStrMap_extends mem
  have e1 := Memory.copyInto_extends mem _ e0 src1 mem.makeStrMap.2 (Nat.le_refl _)
  rw [Memory.strMap_copyInto _ _ _ (by rw [Memory.length_copyInto]; exact hlen),
    Memory.strMap_copyInto _ _ _ hlen, hnew, e0.strMap src1 h1, e1.strMap src2 h2]
  rfl

theorem Memory.setQueryParams_fst {V : Type} (mem : Memory V) (mr : ClientRef)
    (req : http.Request) (queryParams : Option Nat) (hv : mem.Valid)
    (hq : ∀ i, queryParams = some i → i < mem.strMaps.length) :
    (mem.setQueryParams mr req queryParams).map Prod.fst =
      migmig.setQueryParams (mem.client mr) req (mem.strMap queryParams) := by
  have hcell : mem.makeStrMap.1.cell mr.Defaults = mem.cell mr.Defaults :=
    (Memory.makeStrMap_extends mem).cell _
  simp only [Memory.setQueryParams, migmig.setQueryParams, List.map_map, hcell,
    Memory.strMap_merged mem _ _ (Memory.cell_valid mem hv mr.Defaults).2 hq]
  rfl

theorem Memory.setHeaders_fst {V : Type} (mem : Memory V) (mr : ClientRef)
    (req : http.Request) (headers : Option Nat) (hv : mem.Valid)
    (hh : ∀ i, headers = some i → i < mem.strMaps.length) :
    (mem.setHeaders mr req headers).map Prod.fst =
      migmig.setHeaders (mem.client mr) req (mem.strMap headers) := by
  have hcell : mem.makeStrMap.1.cell mr.Defaults = mem.cell mr.Defaults :=
    (Memory.makeStrMap_extends mem).cell _
  simp only [Memory.setHeaders, migmig.setHeaders, List.map_map, hcell,
    Memory.strMap_merged mem _ _ (Memory.cell_valid mem hv mr.Defaults).1 hh]
  rfl

theorem Memory.Request_fst {V : Type} (marshal : Marshal V) (mem : Memory V) (mr : ClientRef)
    (c : Nat) (hv : mem.Valid) :
    (mem.Request marshal mr c).map Prod.fst =
      migmig.Request marshal (mem.client mr) (mem.config c) := by
  unfold Memory.Request migmig.Request
  have hM : (mem.config c).Method = (mem.cell c).Method := rfl
  have hU : (mem.config c).URL = (mem.cell c).URL := rfl
  have hB : (mem.config c).BaseURL = (mem.cell c).BaseURL := rfl
  have hBody : (mem.config c).Body = mem.bodyMap (mem.cell c).Body := rfl
  have hQ : (mem.config c).QueryParams = mem.strMap (mem.cell c).QueryParams := rfl
  have hH : (mem.config c).Headers = mem.strMap (mem.cell c).Headers := rfl
  rw [hM, hU, hB, hBody, hQ, hH]
  cases getMethod (mem.client mr) (mem.cell c).Method with
  | error e => rfl
  | ok method =>
    cases getRequestURL (mem.client mr) (mem.cell c).URL (mem.cell c).BaseURL with
    | error e => rfl
    | ok requestURL =>
      simp only
      cases (getRequestBody marshal (mem.client mr) (mem.bodyMap (mem.cell c).Body) method).err with
      | some e => rfl
      | none =>
        simp only
        cases http.NewRequest method requestURL
            (getRequestBody marshal (mem.client mr) (mem.bodyMap (mem.cell c).Body)
              method).reader with
        | error e => rfl
        | ok req =>
          simp only
          rw [← Memory.setQueryParams_fst mem mr req _ hv (Memory.cell_valid mem hv c).2,
            List.map_flatMap, List.flatMap_map]
          apply List.flatMap_congr
          intro p1 hp1
          have he := Memory.setQueryParams_extends mem mr req _ p1 hp1
          have hv1 : p1.2.Valid := he.valid hv
          have hcl : p1.2.client mr = mem.client mr := by
            simp only [Memory.client, he.config hv]
          rw [List.map_map, he.cell c, ← he.strMap _ (Memory.cell_valid mem hv c).1,
            ← hcl, ← Memory.setHeaders_fst p1.2 mr p1.1 _ hv1
              (fun i hi => Nat.lt_of_lt_of_le ((Memory.cell_valid mem hv c).1 i hi) he.2.2.1),
            List.map_map]
          rfl

theorem mem_updateAt {α : Type} (l : List α) (i : Nat) (f : α → α) (y : α)
    (h : y ∈ updateAt l i f) : y ∈ l ∨ ∃ x ∈ l, y = f x := by
  induction l generalizing i with
  | nil => simp [updateAt] at h
  | cons x xs ih =>
    cases i with
    | zero =>
      simp only [updateAt, List.mem_cons] at h
      rcases h with h | h
      · exact Or.inr ⟨x, by simp, h⟩
      · exact Or.inl (by simp [h])
    | succ i =>
      simp only [updateAt, List.mem_cons] at h
      rcases h with h | h
      · exact Or.inl (by simp [h])
      · rcases ih i h with h2 | ⟨z, hz, h2⟩
        · exact Or.inl (by simp [h2])
        · exact Or.inr ⟨z, by simp [hz], h2⟩

theorem Memory.valid_updateAt {V : Type} (mem : Memory V) (hv : mem.Valid) (i : Nat)
    (f : ConfigCell → ConfigCell)
    (hf : ∀ cell, (f cell).Headers = cell.Headers ∧ (f cell).QueryParams = cell.QueryParams) :
    Memory.Valid { mem with configs := updateAt mem.configs i f } := by
  intro cell hcell
  rcases mem_updateAt _ _ _ _ hcell with h | ⟨x, hx, rfl⟩
  · exact hv cell h
  · rw [(hf x).1, (hf x).2]
    exact hv x hx

theorem sampleMemory_valid : sampleMemory.Valid := by
  intro cell hcell
  simp only [sampleMemory, List.mem_cons, List.mem_singleton, List.not_mem_nil, or_false] at hcell
  rcases hcell with rfl | rfl
  · exact ⟨fun i hi => by cases hi; decide, fun i hi => by cases hi; decide⟩
  · exact ⟨fun i hi => by cases hi; decide, fun i hi => by cases hi; decide⟩

/-! ## The path in the string of a URL -/

theorem url.String_path (u : url.URL) (hop : u.Opaque = []) :
    ∃ pre post : Str, u.String = pre ++ u.EscapedPath ++ post := by
  have hh : ∀ buf : Str, ∃ pre : Str, url.URL.hierPart u buf = pre ++ u.EscapedPath := by
    intro buf
    unfold url.URL.hierPart
    exact ⟨_, rfl⟩
  obtain ⟨pre, hpre⟩ := hh (if u.Scheme ≠ [] then u.Scheme ++ str ":" else [])
  unfold url.URL.String
  simp only [hop, ne_eq, not_true_eq_false, if_false, hpre]
  by_cases hq : u.ForceQuery = true ∨ ¬ u.RawQuery = []
  · by_cases hf : u.Fragment = []
    · exact ⟨pre, str "?" ++ u.RawQuery, by simp [hq, hf, List.append_assoc]⟩
    · exact ⟨pre, str "?" ++ u.RawQuery ++ str "#" ++ u.EscapedFragment,
        by simp [hq, hf, List.append_assoc]⟩
  · by_cases hf : u.Fragment = []
    · exact ⟨pre, [], by simp [hq, hf]⟩
    · exact ⟨pre, str "#" ++ u.EscapedFragment, by simp [hq, hf, List.append_assoc]⟩

/-! ## Verb methods: the method stage -/

theorem getMethod_of_mem {V : Type} (m : MigMig V) (v : Str) (hv : v ∈ methods) :
    getMethod m v = .ok v := by
  have hne : v ≠ [] := by
    intro h
    subst h
    revert hv
    decide
  simp only [getMethod, hne, if_false, hv, not_true_eq_false]

theorem verb_outcomes {V : Type} (marshal : Marshal V) (m : MigMig V) (u : Str)
    (c : Option (Config V))
    (hmarshal : ∀ b e, marshal b = .error e → e ≠ .errMethodMissing ∧ e ≠ .errInvalidMethod)
    (hclient : ∀ r e, m.Client.Do r = .error e → e ≠ .errMethodMissing ∧ e ≠ .errInvalidMethod)
    (v : Str) (hv : getMethod m v = .ok v) :
    ∀ o ∈ (verb v marshal m u c).1,
      o.result ≠ .error .errMethodMissing ∧ o.result ≠ .error .errInvalidMethod := by
  have hurl : ∀ e : Error, (∃ a r, e = .urlError a r) →
      e ≠ .errMethodMissing ∧ e ≠ .errInvalidMethod := by
    rintro e ⟨a, r, rfl⟩
    exact ⟨by simp, by simp⟩
  intro o ho
  have hne : ∀ e : Error, e ≠ .errMethodMissing ∧ e ≠ .errInvalidMethod →
      (Except.error e : Except Error http.Response) ≠ .error .errMethodMissing ∧
      (Except.error e : Except Error http.Response) ≠ .error .errInvalidMethod := by
    intro e he
    exact ⟨fun h => he.1 (Except.error.inj h), fun h => he.2 (Except.error.inj h)⟩
  simp only [verb, Request, hv] at ho
  cases hu : getRequestURL m u (c.getD {}).BaseURL with
  | error e =>
    simp only [hu, List.mem_singleton] at ho
    subst ho
    exact hne e (hurl e (getRequestURL_error _ _ _ _ hu))
  | ok requestURL =>
    simp only [hu] at ho
    cases hb : (getRequestBody marshal m (c.getD {}).Body v).err with
    | some e =>
      simp only [hb, List.mem_singleton] at ho
      subst ho
      obtain ⟨b, hbm⟩ := getRequestBody_error _ _ _ _ _ hb
      exact hne e (hmarshal b e hbm)
    | none =>
      simp only [hb] at ho
      cases hr : http.NewRequest v requestURL (getRequestBody marshal m (c.getD {}).Body v).reader with
      | error e =>
        simp only [hr, List.mem_singleton] at ho
        subst ho
        rcases http.NewRequest_error _ _ _ _ hr with ⟨r, rfl⟩ | h2
        · exact hne _ ⟨by simp, by simp⟩
        · exact hne e (hurl e h2)
      | ok req =>
        simp only [hr, List.mem_flatMap, List.mem_map] at ho
        obtain ⟨req1, _, req2, _, rfl⟩ := ho
        cases hd : m.Client.Do req2 with
        | error e => exact hne e (hclient req2 e hd)
        | ok resp => exact ⟨by simp, by simp⟩

/-! ## Method resolution -/

/-- C1: with `e` the per-call method when it is non-empty and the default method otherwise,
`getMethod` fails with `errMethodMissing` exactly when `e` is empty, fails with
`errInvalidMethod` exactly when `e` is non-empty and not one of the seven verbs, and
otherwise returns `e`; a non-empty invalid per-call method is an error whatever
the default method is. -/
theorem getMethod_spec {V : Type} (m : MigMig V) (p : Str) :
    (getMethod m p = .error .errMethodMissing ↔
      (if p = [] then m.Defaults.Method else p) = []) ∧
    (getMethod m p = .error .errInvalidMethod ↔
      (if p = [] then m.Defaults.Method else p) ≠ [] ∧
      (if p = [] then m.Defaults.Method else p) ∉
        [str "GET", str "POST", str "PUT", str "DELETE", str "PATCH", str "HEAD",
         str "OPTIONS"]) ∧
    ((if p = [] then m.Defaults.Method else p) ∈
        [str "GET", str "POST", str "PUT", str "DELETE", str "PATCH", str "HEAD",
         str "OPTIONS"] →
      getMethod m p = .ok (if p = [] then m.Defaults.Method else p)) ∧
    (p ≠ [] →
      p ∉ [str "GET", str "POST", str "PUT", str "DELETE", str "PATCH", str "HEAD",
           str "OPTIONS"] →
      getMethod m p = .error .errInvalidMethod) := by
  have hne : ∀ e : Str, e ∈ [str "GET", str "POST", str "PUT", str "DELETE", str "PATCH",
      str "HEAD", str "OPTIONS"] → e ≠ [] := by
    intro e he h
    subst h
    revert he
    decide
  have key : ∀ e : Str,
      ((if e = [] then (.error .errMethodMissing : Except Error Str)
        else if e ∉ [str "GET", str "POST", str "PUT", str "DELETE", str "PATCH",
          str "HEAD", str "OPTIONS"] then .error .errInvalidMethod else .ok e) =
          .error .errMethodMissing ↔ e = []) ∧
      ((if e = [] then (.error .errMethodMissing : Except Error Str)
        else if e ∉ [str "GET", str "POST", str "PUT", str "DELETE", str "PATCH",
          str "HEAD", str "OPTIONS"] then .error .errInvalidMethod else .ok e) =
          .error .errInvalidMethod ↔ e ≠ [] ∧ e ∉ [str "GET", str "POST", str "PUT",
            str "DELETE", str "PATCH", str "HEAD", str "OPTIONS"]) := by
    intro e
    by_cases h1 : e = []
    · simp only [h1, if_true, true_iff, ne_eq, not_true_eq_false, false_and, iff_false]
      exact ⟨trivial, by simp⟩
    · by_cases h2 : e ∈ [str "GET", str "POST", str "PUT", str "DELETE", str "PATCH",
          str "HEAD", str "OPTIONS"]
      · simp only [h1, if_false, h2, not_true_eq_false, ne_eq, not_false_eq_true, and_false,
          iff_false]
        exact ⟨by simp, by simp⟩
      · simp only [h1, if_false, h2, not_false_eq_true, if_true, ne_eq, and_self, iff_true,
          iff_false]
        exact ⟨by simp, trivial⟩
  refine ⟨?_, ?_, ?_, ?_⟩
  · exact (key _).1
  · exact (key _).2
  · intro h
    unfold getMethod methods
    simp only [hne _ h, if_false, h, not_true_eq_false]
  · intro h1 h2
    unfold getMethod methods
    simp only [h1, if_false, h2, not_false_eq_true, if_true]

/-- C1, on sample inputs: an invalid per-call method is not replaced by the valid default,
and the match is case-sensitive. -/
theorem getMethod_spec_witness :
    getMethod (Create (V := Nat) { Method := str "GET" } okClient) (str "FETCH") =
      .error .errInvalidMethod ∧
    getMethod (Create (V := Nat) { Method := str "GET" } okClient) (str "post") =
      .error .errInvalidMethod ∧
    getMethod (Create (V := Nat) { Method := str "PATCH" } okClient) [] = .ok (str "PATCH") :=
  ⟨(getMethod_spec _ _).2.2.2 (by decide) (by decide),
   (getMethod_spec _ _).2.2.2 (by decide) (by decide),
   (getMethod_spec (Create (V := Nat) { Method := str "PATCH" } okClient) []).2.2.1
     (by decide)⟩

/-! ## Header merge -/

/-- C3, as stated, fails: a per-call `Content-Type` with the empty value is replaced by
`application/json`, and two per-call keys that differ only in case (`x-a`, `X-A`) are
stored under one header, so that at most one of them holds its own value. -/
theorem setHeaders_merge_counterexample :
    ((str "Content-Type", []) ∈ ([(str "Content-Type", [])] : GoMap Str) ∧
      (setHeaders (New Nat okClient) freshRequest [(str "Content-Type", [])]).map
        (fun r => http.Header.Get r.Header (str "Content-Type")) = [str "application/json"]) ∧
    (setHeaders (New Nat okClient) freshRequest [(str "x-a", str "1"), (str "X-A", str "2")]).map
      (fun r => (http.Header.Get r.Header (str "x-a"), http.Header.Get r.Header (str "X-A"))) =
      [(str "2", str "2"), (str "1", str "1")] := by
  decide!

/-- C3, amended: after `setHeaders`, in whatever order the merged map is visited, the
header of each per-call key `k` holds the per-call value, and the header of each default
key that is no per-call key holds the default value, provided no other key of the two maps
has the canonical MIME form of `k` and unless `k` has the canonical form `Content-Type`
and an empty value. -/
theorem setHeaders_merge {V : Type} (m : MigMig V) (req : http.Request) (P : GoMap Str)
    (hD : (GoMap.keys m.Defaults.Headers).Nodup) (hP : (GoMap.keys P).Nodup) :
    setHeaders m req P ≠ [] ∧
    ∀ r ∈ setHeaders m req P, ∀ k v : Str,
      ((k, v) ∈ P ∨ ((k, v) ∈ m.Defaults.Headers ∧ k ∉ GoMap.keys P)) →
      (∀ k' ∈ GoMap.keys P ++ GoMap.keys m.Defaults.Headers,
        http.CanonicalMIMEHeaderKey k' = http.CanonicalMIMEHeaderKey k → k' = k) →
      ¬ (http.CanonicalMIMEHeaderKey k = str "Content-Type" ∧ v = []) →
      http.Header.Get r.Header k = v := by
  refine ⟨setHeaders_ne_nil m req P, ?_⟩
  intro r hr k v hkv hcol hct
  obtain ⟨order, hperm, rfl⟩ := mem_setHeaders m req P r hr
  have hmem : (k, v) ∈ order :=
    hperm.mem_iff.2 ((mergeMaps_mem _ _ hD hP k v).2 hkv)
  have hnd : (GoMap.keys order).Nodup :=
    (List.Perm.nodup_iff (hperm.map Prod.fst)).2 (mergeMaps_nodup _ _)
  have hcol' : ∀ kv ∈ order,
      http.CanonicalMIMEHeaderKey kv.1 = http.CanonicalMIMEHeaderKey k → kv.1 = k := by
    intro kv hkvo hc
    have h1 : (kv.1, kv.2) ∈ mergeMaps m.Defaults.Headers P := hperm.mem_iff.1 hkvo
    rcases (mergeMaps_mem _ _ hD hP kv.1 kv.2).1 h1 with h2 | h2
    · exact hcol _ (List.mem_append.2 (Or.inl (GoMap.mem_keys_of_mem h2))) hc
    · exact hcol _ (List.mem_append.2 (Or.inr (GoMap.mem_keys_of_mem h2.1))) hc
  have hget := applyHeaders_get req order hnd k v hmem hcol'
  have hG : http.Header.Get (applyHeaders req order).Header k = v := by
    simp only [http.Header.Get, hget]
  rw [defaultContentType_Get]
  by_cases hc : http.CanonicalMIMEHeaderKey k = str "Content-Type"
  · have hv : v ≠ [] := fun h => hct ⟨hc, h⟩
    have hG' : http.Header.Get (applyHeaders req order).Header (str "Content-Type") = v := by
      rw [hc] at hget
      simp only [http.Header.Get, canonical_contentType, hget]
    rw [if_pos hc, hG', if_neg hv]
  · rw [if_neg hc, hG]

/-- C3, on the sample of the claim: defaults `X: 1`, `Content-Type: text/plain` and per-call
`X: 2` give `X = 2` and `Content-Type = text/plain`, in every iteration order. -/
theorem setHeaders_merge_witness :
    (GoMap.keys [(str "X", str "1"), (str "Content-Type", str "text/plain")]).Nodup ∧
    (GoMap.keys [(str "X", str "2")]).Nodup ∧
    ∀ r ∈ setHeaders (Create (V := Nat)
        { Headers := [(str "X", str "1"), (str "Content-Type", str "text/plain")] } okClient)
        freshRequest [(str "X", str "2")],
      http.Header.Get r.Header (str "X") = str "2" ∧
      http.Header.Get r.Header (str "Content-Type") = str "text/plain" :=
  ⟨by decide, by decide, fun r hr =>
    ⟨(setHeaders_merge _ freshRequest [(str "X", str "2")] (by decide) (by decide)).2 r hr
        (str "X") (str "2") (by decide) (by decide!) (by decide!),
     (setHeaders_merge _ freshRequest [(str "X", str "2")] (by decide) (by decide)).2 r hr
        (str "Content-Type") (str "text/plain") (by decide) (by decide!) (by decide!)⟩⟩

/-- C4, as stated, fails: a merged map whose only key is `content-type` has no key equal
to `Content-Type`, yet no default is set and `text/plain` is the content type; and a merged
`Content-Type` with the empty value is present, yet `application/json` replaces it. -/
theorem setHeaders_contentType_counterexample :
    (str "Content-Type" ∉ GoMap.keys (mergeMaps [] [(str "content-type", str "text/plain")]) ∧
      (setHeaders (New Nat okClient) freshRequest [(str "content-type", str "text/plain")]).map
        (fun r => r.Header) = [[(str "Content-Type", [str "text/plain"])]]) ∧
    (GoMap.get (mergeMaps [] [(str "Content-Type", [])]) (str "Content-Type") = some [] ∧
      (setHeaders (New Nat okClient) freshRequest [(str "Content-Type", [])]).map
        (fun r => r.Header) = [[(str "Content-Type", [str "application/json"])]]) := by
  decide!

/-- C4, amended: on a fresh request `setHeaders` leaves `Content-Type` at
`application/json` when no key of the merged map has the canonical MIME form
`Content-Type`; when exactly one key has it, the content type is that key's merged value
if the value is non-empty and `application/json` if it is empty. -/
theorem setHeaders_contentType {V : Type} (m : MigMig V) (req : http.Request) (P : GoMap Str)
    (hfresh : req.Header = []) :
    setHeaders m req P ≠ [] ∧
    ∀ r ∈ setHeaders m req P,
      ((∀ kv ∈ mergeMaps m.Defaults.Headers P,
          http.CanonicalMIMEHeaderKey kv.1 ≠ str "Content-Type") →
        http.Header.Get r.Header (str "Content-Type") = str "application/json") ∧
      (∀ k v : Str, (k, v) ∈ mergeMaps m.Defaults.Headers P →
        http.CanonicalMIMEHeaderKey k = str "Content-Type" →
        (∀ kv ∈ mergeMaps m.Defaults.Headers P,
          http.CanonicalMIMEHeaderKey kv.1 = str "Content-Type" → kv.1 = k) →
        http.Header.Get r.Header (str "Content-Type") =
          if v = [] then str "application/json" else v) := by
  refine ⟨setHeaders_ne_nil m req P, ?_⟩
  intro r hr
  obtain ⟨order, hperm, rfl⟩ := mem_setHeaders m req P r hr
  constructor
  · intro hno
    have hget := applyHeaders_get_other req order (str "Content-Type")
      (fun kv hkv => hno kv (hperm.mem_iff.1 hkv))
    rw [defaultContentType_contentType]
    have hG : http.Header.Get (applyHeaders req order).Header (str "Content-Type") = [] := by
      simp only [http.Header.Get, canonical_contentType, hget, hfresh, GoMap.get]
    rw [hG, if_pos rfl]
  · intro k v hkv hc hone
    have hnd : (GoMap.keys order).Nodup :=
      (List.Perm.nodup_iff (hperm.map Prod.fst)).2 (mergeMaps_nodup _ _)
    have hget := applyHeaders_get req order hnd k v (hperm.mem_iff.2 hkv)
      (fun kv hkvo h => hone kv (hperm.mem_iff.1 hkvo) (h.trans hc))
    have hG : http.Header.Get (applyHeaders req order).Header (str "Content-Type") = v := by
      rw [hc] at hget
      simp only [http.Header.Get, canonical_contentType, hget]
    rw [defaultContentType_contentType, hG]

/-- C4, on samples: with no header at all the default is set; a lone `content-type`
key keeps its value. -/
theorem setHeaders_contentType_witness :
    (∀ r ∈ setHeaders (New Nat okClient) freshRequest [],
      http.Header.Get r.Header (str "Content-Type") = str "application/json") ∧
    (∀ r ∈ setHeaders (New Nat okClient) freshRequest [(str "content-type", str "text/xml")],
      http.Header.Get r.Header (str "Content-Type") = str "text/xml") :=
  ⟨fun r hr => ((setHeaders_contentType (New Nat okClient) freshRequest [] rfl).2 r hr).1
      (by decide),
   fun r hr => ((setHeaders_contentType (New Nat okClient) freshRequest
      [(str "content-type", str "text/xml")] rfl).2 r hr).2
      (str "content-type") (str "text/xml") (by decide) (by decide!) (by decide!)⟩

/-- C16: when the default header map and the per-call header map are both empty,
`setHeaders` on a fresh request leaves exactly one header, `Content-Type` with the single
value `application/json`. -/
theorem setHeaders_empty {V : Type} (m : MigMig V) (req : http.Request)
    (hD : m.Defaults.Headers = []) (hfresh : req.Header = []) :
    setHeaders m req [] =
      [{ req with Header := [(str "Content-Type", [str "application/json"])] }] := by
  have hget : http.Header.Get ([] : http.Header) (str "Content-Type") = [] := by decide!
  have hset : http.Header.Set ([] : http.Header) (str "Content-Type") (str "application/json") =
      [(str "Content-Type", [str "application/json"])] := by decide!
  simp only [setHeaders, hD, mergeMaps, List.foldl_nil, rangeOrders, List.permutations',
    List.map_cons, List.map_nil, applyHeaders, defaultContentType, hfresh, hget, if_true, hset]

/-- C16, on a sample: a client without defaults and a call without headers. -/
theorem setHeaders_empty_witness :
    (setHeaders (New Nat okClient) freshRequest []).map (fun r => r.Header) =
      [[(str "Content-Type", [str "application/json"])]] :=
  congrArg (List.map fun r => r.Header) (setHeaders_empty (New Nat okClient) freshRequest rfl rfl)

/-! ## Query parameter merge -/

/-- C5: when the URL of the request has no query string, `setQueryParams`, in whatever
order it visits the merged map, gives the URL a query string that `ParseQuery` decodes
without error to exactly the merged map: each key of the defaults or of the per-call map
occurs once, with the per-call value when the per-call map has the key and the default
value otherwise, and there is no other key. -/
theorem setQueryParams_decodes {V : Type} (m : MigMig V) (req : http.Request) (P : GoMap Str)
    (hD : (GoMap.keys m.Defaults.QueryParams).Nodup) (hP : (GoMap.keys P).Nodup)
    (hq : req.URL.RawQuery = []) :
    setQueryParams m req P ≠ [] ∧
    ∀ r ∈ setQueryParams m req P, ∃ vals : url.Values,
      url.ParseQuery r.URL.RawQuery = (vals, none) ∧
      (GoMap.keys vals).Nodup ∧
      ∀ k, GoMap.get vals k =
        ((GoMap.get P k).orElse fun _ => GoMap.get m.Defaults.QueryParams k).map fun v => [v] := by
  refine ⟨setQueryParams_ne_nil m req P, ?_⟩
  intro r hr
  obtain ⟨order, q, hperm, rfl, rfl⟩ := mem_setQueryParams m req P r hr
  have hnd : (GoMap.keys order).Nodup :=
    (List.Perm.nodup_iff (hperm.map Prod.fst)).2 (mergeMaps_nodup _ _)
  have hquery : req.URL.Query = [] := by
    simp only [url.URL.Query, hq]
    rfl
  have hfold := url.foldl_Add_fresh order [] hnd (by intro kv _; simp [GoMap.keys])
  obtain ⟨vals, h1, h2, h3⟩ := url.ParseQuery_single order hnd
  refine ⟨vals, ?_, h2, ?_⟩
  · simp only [hquery, hfold, List.nil_append]
    exact h1
  · intro k
    rw [h3, GoMap.get_perm order _ hperm (mergeMaps_nodup _ _), mergeMaps_get _ _ hD hP]

/-- C5, on the sample of the claim: defaults `a=1` and per-call `a=2`, `b=3` yield the
query `a=2&b=3` in each iteration order, which decodes to `a: 2`, `b: 3`. -/
theorem setQueryParams_decodes_witness :
    (setQueryParams (Create (V := Nat) { QueryParams := [(str "a", str "1")] } okClient)
      freshRequest [(str "a", str "2"), (str "b", str "3")]).map (fun r => r.URL.RawQuery) =
      [str "a=2&b=3", str "a=2&b=3"] ∧
    ∀ r ∈ setQueryParams (Create (V := Nat) { QueryParams := [(str "a", str "1")] } okClient)
        freshRequest [(str "a", str "2"), (str "b", str "3")],
      ∃ vals : url.Values, url.ParseQuery r.URL.RawQuery = (vals, none) ∧
        (GoMap.keys vals).Nodup ∧
        ∀ k, GoMap.get vals k =
          ((GoMap.get [(str "a", str "2"), (str "b", str "3")] k).orElse
            fun _ => GoMap.get [(str "a", str "1")] k).map fun v => [v] :=
  ⟨by decide!,
   (setQueryParams_decodes (Create (V := Nat) { QueryParams := [(str "a", str "1")] } okClient)
      freshRequest [(str "a", str "2"), (str "b", str "3")] (by decide) (by decide) rfl).2⟩

/-- C15, as stated, fails: when the URL carries `a=1` and the merged map has `a: 2`, the
query after `setQueryParams` is `a=1&a=2`, and the value `Values.Get` returns for `a` is
`1`, the URL's own, not the merged one. -/
theorem setQueryParams_existing_counterexample :
    (setQueryParams (New Nat okClient) (requestWithQuery (str "a=1")) [(str "a", str "2")]).map
      (fun r => (r.URL.RawQuery, url.Values.Get r.URL.Query (str "a"))) =
      [(str "a=1&a=2", str "1")] := by
  decide!

/-- C15, amended: when the merged parameter map has a key `k`, after `setQueryParams`
the values of `k` in the query of the request URL are the values `k` had in the URL's own
query followed by the merged value; when the URL's own query had a value for `k`, the
first value of `k`, which `Values.Get` returns, is still that one. -/
theorem setQueryParams_existing {V : Type} (m : MigMig V) (req : http.Request)
    (P : GoMap Str) :
    setQueryParams m req P ≠ [] ∧
    ∀ r ∈ setQueryParams m req P, ∀ k v : Str,
      GoMap.get (mergeMaps m.Defaults.QueryParams P) k = some v →
      (GoMap.get r.URL.Query k).getD [] = (GoMap.get req.URL.Query k).getD [] ++ [v] ∧
      ((GoMap.get req.URL.Query k).getD [] ≠ [] →
        url.Values.Get r.URL.Query k = url.Values.Get req.URL.Query k) := by
  refine ⟨setQueryParams_ne_nil m req P, ?_⟩
  intro r hr k v hk
  have h := (setQueryParams_values m req P r hr k).2
  rw [hk] at h
  refine ⟨h, ?_⟩
  intro hne
  unfold url.Values.Get
  cases h0 : GoMap.get req.URL.Query k with
  | none => simp [h0] at hne
  | some l0 =>
    cases l0 with
    | nil => simp [h0] at hne
    | cons x xs =>
      cases h1 : GoMap.get r.URL.Query k with
      | none => simp [h0, h1] at h
      | some l1 =>
        simp only [h0, h1, Option.getD_some, List.cons_append] at h
        subst h
        rfl

/-- C15, on a sample: with `a=1` in the URL and the merged `a: 2`, the values of `a` are
`1`, `2`. -/
theorem setQueryParams_existing_witness :
    GoMap.get (mergeMaps [] [(str "a", str "2")]) (str "a") = some (str "2") ∧
    ∀ r ∈ setQueryParams (New Nat okClient) (requestWithQuery (str "a=1")) [(str "a", str "2")],
      (GoMap.get r.URL.Query (str "a")).getD [] = [str "1", str "2"] :=
  ⟨by decide!, fun r hr =>
    ((setQueryParams_existing (New Nat okClient) (requestWithQuery (str "a=1"))
      [(str "a", str "2")]).2 r hr (str "a") (str "2") (by decide!)).1⟩

/-- C17: `setQueryParams` adds to the query the URL already has: in whatever order the
merged map is visited, the new query string parses without error, and every key that is
not a key of the defaults nor of the per-call map has in it the values, in the same
order, that it had in the URL's own query. -/
theorem setQueryParams_preserves {V : Type} (m : MigMig V) (req : http.Request)
    (P : GoMap Str) :
    setQueryParams m req P ≠ [] ∧
    ∀ r ∈ setQueryParams m req P,
      (url.ParseQuery r.URL.RawQuery).2 = none ∧
      ∀ k, k ∉ GoMap.keys m.Defaults.QueryParams → k ∉ GoMap.keys P →
        (GoMap.get r.URL.Query k).getD [] = (GoMap.get req.URL.Query k).getD [] := by
  refine ⟨setQueryParams_ne_nil m req P, ?_⟩
  intro r hr
  refine ⟨(setQueryParams_values m req P r hr []).1, ?_⟩
  intro k hD hP
  have h := (setQueryParams_values m req P r hr k).2
  rw [mergeMaps_get_none _ _ k hD hP] at h
  simpa using h

/-- C17, on a sample: the URL's own `z=9` stays when `a: 2` is merged into `z=9&a=1`. -/
theorem setQueryParams_preserves_witness :
    (setQueryParams (New Nat okClient) (requestWithQuery (str "z=9&a=1"))
        [(str "a", str "2")]).map (fun r => r.URL.RawQuery) = [str "a=1&a=2&z=9"] ∧
    ∀ r ∈ setQueryParams (New Nat okClient) (requestWithQuery (str "z=9&a=1"))
        [(str "a", str "2")],
      (GoMap.get r.URL.Query (str "z")).getD [] = [str "9"] :=
  ⟨by decide!, fun r hr =>
    ((setQueryParams_preserves (New Nat okClient) (requestWithQuery (str "z=9&a=1"))
      [(str "a", str "2")]).2 r hr).2 (str "z") (by decide) (by decide)⟩

/-! ## Body resolution -/

/-- C6: `getRequestBody` returns the nil reader and the nil error, without a call of the
serializer, whenever the effective body is empty or the method is GET, HEAD or OPTIONS,
whatever the serializer would do with the body; and it returns the nil reader with the nil
error only in those cases. -/
theorem getRequestBody_absent {V : Type} (marshal : Marshal V) (m : MigMig V)
    (body : GoMap V) (method : Str) :
    (((if body.length = 0 then m.Defaults.Body else body) = [] ∨
        method ∈ [str "GET", str "HEAD", str "OPTIONS"]) →
      getRequestBody marshal m body method = ⟨none, none, []⟩) ∧
    (((getRequestBody marshal m body method).reader = none ∧
        (getRequestBody marshal m body method).err = none) →
      ((if body.length = 0 then m.Defaults.Body else body) = [] ∨
        method ∈ [str "GET", str "HEAD", str "OPTIONS"])) := by
  have hacc : doesMethodAcceptBody method = false ↔
      method ∈ [str "GET", str "HEAD", str "OPTIONS"] := by
    simp only [doesMethodAcceptBody, List.mem_cons, List.mem_singleton, List.not_mem_nil,
      or_false, Bool.not_eq_false', Bool.or_eq_true, decide_eq_true_eq]
    tauto
  constructor
  · intro h
    unfold getRequestBody
    rcases h with h | h
    · simp [h]
    · simp [hacc.2 h]
  · intro h
    by_contra hc
    rw [not_or] at hc
    have h1 : ¬ (if body.length = 0 then m.Defaults.Body else body).length = 0 := by
      rw [List.length_eq_zero]
      exact hc.1
    have h2 : doesMethodAcceptBody method = true := by
      cases hd : doesMethodAcceptBody method
      · exact absurd (hacc.1 hd) hc.2
      · rfl
    unfold getRequestBody at h
    simp only [h1, h2, Bool.not_true, false_or, Bool.false_eq_true, if_false] at h
    cases hm : marshal (if body.length = 0 then m.Defaults.Body else body) with
    | error e => simp [hm] at h
    | ok content => simp [hm] at h

/-- C6, on samples: a GET with a body the serializer rejects yields the nil reader and the
nil error and the serializer is not called; a POST with the same body does not. -/
theorem getRequestBody_absent_witness :
    getRequestBody (failingMarshal Nat) (New Nat okClient) [(str "k", 0)] (str "GET") =
      ⟨none, none, []⟩ ∧
    (getRequestBody (failingMarshal Nat) (New Nat okClient) [(str "k", 0)] (str "POST")).err =
      some (.jsonError "json: unsupported type") :=
  ⟨(getRequestBody_absent _ _ _ _).1 (Or.inr (by decide)), rfl⟩

/-- C7: for POST, PUT, DELETE and PATCH and a non-empty effective body (the per-call body
when it has a key, else the default body), `getRequestBody` calls the serializer once, on
the effective body, and returns its bytes, or its error when it fails; a non-empty per-call
body is the effective body, so that the result is the same for every default body. -/
theorem getRequestBody_serializes {V : Type} (marshal : Marshal V) (m : MigMig V)
    (body : GoMap V) (method : Str)
    (hm : method ∈ [str "POST", str "PUT", str "DELETE", str "PATCH"])
    (hne : (if body.length = 0 then m.Defaults.Body else body) ≠ []) :
    getRequestBody marshal m body method =
      (match marshal (if body.length = 0 then m.Defaults.Body else body) with
       | .ok content =>
         ⟨some content, none, [if body.length = 0 then m.Defaults.Body else body]⟩
       | .error err => ⟨none, some err, [if body.length = 0 then m.Defaults.Body else body]⟩) ∧
    (body ≠ [] →
      (if body.length = 0 then m.Defaults.Body else body) = body ∧
      ∀ m' : MigMig V,
        getRequestBody marshal m' body method = getRequestBody marshal m body method) := by
  have hacc : doesMethodAcceptBody method = true := by
    simp only [List.mem_cons, List.mem_singleton, List.not_mem_nil, or_false] at hm
    rcases hm with h | h | h | h <;> subst h <;> decide
  have h1 : ¬ (if body.length = 0 then m.Defaults.Body else body).length = 0 := by
    rw [List.length_eq_zero]
    exact hne
  constructor
  · unfold getRequestBody
    simp only [h1, hacc, Bool.not_true, false_or, Bool.false_eq_true, if_false]
    cases marshal (if body.length = 0 then m.Defaults.Body else body) <;> rfl
  · intro hb
    have hl : ¬ body.length = 0 := by
      rw [List.length_eq_zero]
      exact hb
    refine ⟨by simp [hl], ?_⟩
    intro m'
    unfold getRequestBody
    simp only [hl, if_false]

/-- C7, on the sample of the claim: POST with an empty per-call body and the default body
`a: 1` gives the serializer's bytes for the default body. -/
theorem getRequestBody_serializes_witness :
    getRequestBody sampleMarshal (Create { Body := [(str "a", 1)] } okClient) [] (str "POST") =
      ⟨some ([123, 34] ++ str "a" ++ [34] ++ str ":1" ++ [125]), none, [[(str "a", 1)]]⟩ :=
  (getRequestBody_serializes sampleMarshal (Create { Body := [(str "a", 1)] } okClient) []
    (str "POST") (by decide) (by decide)).1

/-! ## URL resolution -/

/-- C8: when the effective URL string (the per-call URL, or the default URL when that is
empty) parses to a URL with a scheme, `getRequestURL` succeeds with that URL, written by
`URL.String`, and the result is the same for every per-call base and every default base,
whether the base parses or not. -/
theorem getRequestURL_absolute {V : Type} (m : MigMig V) (requestURL baseURL : Str)
    (u : url.URL)
    (hparse : url.Parse (if requestURL = [] then m.Defaults.URL else requestURL) = .ok u)
    (habs : u.IsAbs = true) :
    getRequestURL m requestURL baseURL = .ok u.String ∧
    ∀ (m' : MigMig V) (baseURL' : Str), m'.Defaults.URL = m.Defaults.URL →
      getRequestURL m' requestURL baseURL' = getRequestURL m requestURL baseURL := by
  have h : ∀ (m' : MigMig V) (baseURL' : Str), m'.Defaults.URL = m.Defaults.URL →
      getRequestURL m' requestURL baseURL' = .ok u.String := by
    intro m' b' hm'
    unfold getRequestURL
    simp only [hm', hparse, habs, if_true]
  exact ⟨h m baseURL rfl, fun m' b' hm' => (h m' b' hm').trans (h m baseURL rfl).symm⟩

/-- C8, on the sample of the claim: the per-call URL `http://other.com/x` resolves to
itself, here with a per-call base and a default base that both fail to parse. -/
theorem getRequestURL_absolute_witness :
    (url.Parse (str ":") = .error (.urlError (str ":") "missing protocol scheme") ∧
      url.Parse (str "http://a b/") =
        .error (.urlError (str "http://a b/") "invalid character in host name")) ∧
    getRequestURL (Create (V := Nat) { BaseURL := str "http://a b/" } okClient)
      (str "http://other.com/x") (str ":") = .ok (str "http://other.com/x") :=
  ⟨by decide!,
   (getRequestURL_absolute (Create (V := Nat) { BaseURL := str "http://a b/" } okClient)
      (str "http://other.com/x") (str ":")
      { Scheme := str "http", Host := str "other.com", Path := str "/x" }
      (by decide!) (by decide!)).1⟩

/-- C9, as stated, fails: for the relative URL `users?x=1`, whose parsed path component
is `users`, and the base `http://api.example.com/v1`, the path of the result is not the
join of `/v1` and `users`: the whole URL string is joined, and its query text is escaped
into the path. -/
theorem getRequestURL_join_counterexample :
    url.Parse (str "users?x=1") = .ok { Path := str "users", RawQuery := str "x=1" } ∧
    url.Parse (str "http://api.example.com/v1") =
      .ok { Scheme := str "http", Host := str "api.example.com", Path := str "/v1" } ∧
    url.URL.String
      { Scheme := str "http", Host := str "api.example.com",
        Path := path.Join (str "/v1") (str "users") } = str "http://api.example.com/v1/users" ∧
    getRequestURL (Create (V := Nat) { BaseURL := str "http://api.example.com/v1" } okClient)
      (str "users?x=1") [] = .ok (str "http://api.example.com/v1/users%3Fx=1") := by
  decide!

/-- C9, amended: for an effective URL that parses to a URL without a scheme and an
effective base that parses, `getRequestURL` returns the base URL with its path replaced by
the join of the base path and the effective URL string as given (query and fragment text
included), the other fields of the base kept; this is the join with the path component of
the parsed URL whenever that component is the URL string itself. -/
theorem getRequestURL_join {V : Type} (m : MigMig V) (requestURL baseURL : Str)
    (u b : url.URL)
    (hparse : url.Parse (if requestURL = [] then m.Defaults.URL else requestURL) = .ok u)
    (hrel : u.IsAbs = false)
    (hbase : url.Parse (if baseURL = [] then m.Defaults.BaseURL else baseURL) = .ok b) :
    getRequestURL m requestURL baseURL =
      .ok (url.URL.String
        { b with
          Path := path.Join b.Path (if requestURL = [] then m.Defaults.URL else requestURL) }) ∧
    (u.Path = (if requestURL = [] then m.Defaults.URL else requestURL) →
      getRequestURL m requestURL baseURL =
        .ok (url.URL.String { b with Path := path.Join b.Path u.Path })) := by
  have h : getRequestURL m requestURL baseURL =
      .ok (url.URL.String
        { b with
          Path := path.Join b.Path (if requestURL = [] then m.Defaults.URL else requestURL) }) := by
    unfold getRequestURL
    simp only [hparse, hrel, hbase, Bool.false_eq_true, if_false]
  exact ⟨h, fun hp => by rw [h, hp]⟩

/-- C9, on the sample of the claim: the default base `http://api.example.com/v1` and the
per-call URL `users` resolve to `http://api.example.com/v1/users`. -/
theorem getRequestURL_join_witness :
    getRequestURL (Create (V := Nat) { BaseURL := str "http://api.example.com/v1" } okClient)
      (str "users") [] = .ok (str "http://api.example.com/v1/users") :=
  (getRequestURL_join (Create (V := Nat) { BaseURL := str "http://api.example.com/v1" } okClient)
    (str "users") [] { Path := str "users" }
    { Scheme := str "http", Host := str "api.example.com", Path := str "/v1" }
    (by decide!) (by decide!) (by decide!)).1

/-- C10, as stated, fails: with no URL at all and the base `http://api.example.com/v1/`,
which `URL.String` writes back as it is, the result is `http://api.example.com/v1`,
without the trailing slash. -/
theorem getRequestURL_empty_counterexample :
    (url.Parse (str "http://api.example.com/v1/")).map url.URL.String =
      .ok (str "http://api.example.com/v1/") ∧
    getRequestURL (Create (V := Nat) { BaseURL := str "http://api.example.com/v1/" } okClient)
      [] [] = .ok (str "http://api.example.com/v1") := by
  decide!

/-- C10, amended: with an empty effective URL and an effective base that parses,
`getRequestURL` succeeds and returns the base URL with its path cleaned by `path.Clean`
(an empty path stays empty); this is the base URL unchanged when its path is empty or is
already clean. -/
theorem getRequestURL_empty {V : Type} (m : MigMig V) (baseURL : Str) (b : url.URL)
    (hurl : m.Defaults.URL = [])
    (hbase : url.Parse (if baseURL = [] then m.Defaults.BaseURL else baseURL) = .ok b) :
    getRequestURL m [] baseURL =
      .ok (url.URL.String { b with Path := (if b.Path = [] then [] else path.Clean b.Path) }) ∧
    ((b.Path = [] ∨ path.Clean b.Path = b.Path) →
      getRequestURL m [] baseURL = .ok b.String) := by
  have hempty : url.Parse [] = .ok {} := by decide
  have h : getRequestURL m [] baseURL =
      .ok (url.URL.String { b with Path := (if b.Path = [] then [] else path.Clean b.Path) }) := by
    unfold getRequestURL
    simp only [if_true, hurl, hempty, hbase, path.Join_empty]
    rfl
  refine ⟨h, ?_⟩
  intro hp
  rw [h]
  rcases hp with hp | hp
  · simp only [hp, if_true]
    cases b
    simp_all
  · by_cases he : b.Path = []
    · simp only [he, if_true]
      cases b
      simp_all
    · simp only [he, if_false, hp]

/-- C10, on a sample: with no URL at all the base `http://api.example.com/v1`, whose path
is clean, is returned as it is. -/
theorem getRequestURL_empty_witness :
    getRequestURL (Create (V := Nat) { BaseURL := str "http://api.example.com/v1" } okClient)
      [] [] = .ok (str "http://api.example.com/v1") :=
  (getRequestURL_empty (Create (V := Nat) { BaseURL := str "http://api.example.com/v1" } okClient)
    [] { Scheme := str "http", Host := str "api.example.com", Path := str "/v1" }
    rfl (by decide!)).2 (Or.inr (by decide!))

/-- C11, as stated, fails: with no base at all the relative URL `users` resolves, without
an error, to `users`, which has neither a scheme nor a host. -/
theorem getRequestURL_success_counterexample :
    getRequestURL (New Nat okClient) (str "users") [] = .ok (str "users") ∧
    url.Parse (str "users") = .ok { Path := str "users" } := by
  decide!

/-- C11, amended: `getRequestURL` succeeds exactly when the effective URL parses with a
scheme, and then returns that URL, or parses without a scheme while the effective base
parses, and then returns the base with its field `Path` replaced by the join, as
`URL.String` writes it, absolute or not; and it fails exactly with the error of
`url.Parse` on the effective URL, or on the effective base for a URL without a scheme. -/
theorem getRequestURL_success {V : Type} (m : MigMig V) (requestURL baseURL : Str) :
    (∀ s, getRequestURL m requestURL baseURL = .ok s ↔
      ((∃ u, url.Parse (if requestURL = [] then m.Defaults.URL else requestURL) = .ok u ∧
          u.Scheme ≠ [] ∧ s = u.String) ∨
       (∃ u b, url.Parse (if requestURL = [] then m.Defaults.URL else requestURL) = .ok u ∧
          u.Scheme = [] ∧
          url.Parse (if baseURL = [] then m.Defaults.BaseURL else baseURL) = .ok b ∧
          s = url.URL.String
            { b with
              Path := path.Join b.Path
                (if requestURL = [] then m.Defaults.URL else requestURL) }))) ∧
    (∀ e, getRequestURL m requestURL baseURL = .error e ↔
      (url.Parse (if requestURL = [] then m.Defaults.URL else requestURL) = .error e ∨
       ((∃ u, url.Parse (if requestURL = [] then m.Defaults.URL else requestURL) = .ok u ∧
           u.Scheme = []) ∧
         url.Parse (if baseURL = [] then m.Defaults.BaseURL else baseURL) = .error e))) := by
  rw [getRequestURL_cases]
  cases hu : url.Parse (if requestURL = [] then m.Defaults.URL else requestURL) with
  | error e0 =>
    constructor
    · intro s
      constructor
      · intro h
        cases h
      · rintro (⟨u, h, _⟩ | ⟨u, b, h, _⟩) <;> cases h
    · intro e
      constructor
      · intro h
        simp only [Except.error.injEq] at h
        exact Or.inl (by rw [h])
      · rintro (h | ⟨⟨u, h, _⟩, _⟩)
        · simp only [Except.error.injEq] at h
          rw [h]
        · cases h
  | ok u =>
    by_cases hs : u.Scheme = []
    · simp only [hs, ne_eq, not_true_eq_false, if_false]
      cases hb : url.Parse (if baseURL = [] then m.Defaults.BaseURL else baseURL) with
      | error e0 =>
        constructor
        · intro s
          constructor
          · intro h
            cases h
          · rintro (⟨u1, h, h1, _⟩ | ⟨u1, b, _, _, h, _⟩)
            · simp only [Except.ok.injEq] at h
              exact absurd (h ▸ hs) h1
            · cases h
        · intro e
          constructor
          · intro h
            simp only [Except.error.injEq] at h
            exact Or.inr ⟨⟨u, rfl, hs⟩, by rw [h]⟩
          · rintro (h | ⟨_, h⟩)
            · cases h
            · simp only [Except.error.injEq] at h
              rw [h]
      | ok b =>
        constructor
        · intro s
          constructor
          · intro h
            simp only [Except.ok.injEq] at h
            exact Or.inr ⟨u, b, rfl, hs, rfl, h.symm⟩
          · rintro (⟨u1, h, h1, _⟩ | ⟨u1, b1, _, _, h, h2⟩)
            · simp only [Except.ok.injEq] at h
              exact absurd (h ▸ hs) h1
            · simp only [Except.ok.injEq] at h
              subst h
              rw [h2]
        · intro e
          constructor
          · intro h
            cases h
          · rintro (h | ⟨_, h⟩) <;> cases h
    · simp only [ne_eq, hs, not_false_eq_true, if_true]
      constructor
      · intro s
        constructor
        · intro h
          simp only [Except.ok.injEq] at h
          exact Or.inl ⟨u, rfl, hs, h.symm⟩
        · rintro (⟨u1, h, _, h2⟩ | ⟨u1, b, h, h1, _⟩)
          · simp only [Except.ok.injEq] at h
            subst h
            rw [h2]
          · simp only [Except.ok.injEq] at h
            exact absurd (h ▸ h1) hs
      · intro e
        constructor
        · intro h
          cases h
        · rintro (h | ⟨⟨u1, h, h1⟩, _⟩)
          · cases h
          · simp only [Except.ok.injEq] at h
            exact absurd (h ▸ h1) hs

/-- C11, on samples: the URL `users` on the base `/api`, which has no scheme, resolves to
`/api/users`, and on the malformed base `:` it fails with the error of the base. -/
theorem getRequestURL_success_witness :
    getRequestURL (Create (V := Nat) { BaseURL := str "/api" } okClient) (str "users") [] =
      .ok (str "/api/users") ∧
    getRequestURL (New Nat okClient) (str "users") (str ":") =
      .error (.urlError (str ":") "missing protocol scheme") :=
  ⟨((getRequestURL_success (Create (V := Nat) { BaseURL := str "/api" } okClient)
      (str "users") []).1 (str "/api/users")).2
      (Or.inr ⟨{ Path := str "users" }, { Path := str "/api" }, by decide!, rfl, by decide!,
        by decide!⟩),
   ((getRequestURL_success (New Nat okClient) (str "users") (str ":")).2
      (.urlError (str ":") "missing protocol scheme")).2
      (Or.inr ⟨⟨{ Path := str "users" }, by decide!, rfl⟩, by decide!⟩)⟩

/-- C18, as stated, fails: on the base `http://api.example.com/v1` the relative URL `../x`
resolves to `http://api.example.com/x`, whose path `/x` does not begin with `/v1`. -/
theorem getRequestURL_clean_counterexample :
    getRequestURL (Create (V := Nat) { BaseURL := str "http://api.example.com/v1" } okClient)
      (str "../x") [] = .ok (str "http://api.example.com/x") ∧
    url.Parse (str "http://api.example.com/x") =
      .ok { Scheme := str "http", Host := str "api.example.com", Path := str "/x" } ∧
    url.Parse (str "http://api.example.com/v1") =
      .ok { Scheme := str "http", Host := str "api.example.com", Path := str "/v1" } ∧
    ¬ (str "/v1").isPrefixOf (str "/x") = true := by
  decide!

/-- C18, amended: for a non-empty effective URL without a scheme and a base that parses
without an opaque part, `getRequestURL` returns the base with its path replaced by
`path.Clean` of the base path, a slash and the URL string (of the URL string alone when
the base path is empty), as `URL.String` writes it, so that the returned string holds
that path in its escaped form: the join collapses duplicate slashes and also resolves
`.` and `..` segments. -/
theorem getRequestURL_clean {V : Type} (m : MigMig V) (requestURL baseURL : Str)
    (u b : url.URL)
    (hparse : url.Parse (if requestURL = [] then m.Defaults.URL else requestURL) = .ok u)
    (hrel : u.Scheme = [])
    (hbase : url.Parse (if baseURL = [] then m.Defaults.BaseURL else baseURL) = .ok b)
    (hop : b.Opaque = [])
    (hne : (if requestURL = [] then m.Defaults.URL else requestURL) ≠ []) :
    getRequestURL m requestURL baseURL =
      .ok (url.URL.String
        { b with
          Path := path.Clean (if b.Path = []
            then (if requestURL = [] then m.Defaults.URL else requestURL)
            else b.Path ++ ch '/' ::
              (if requestURL = [] then m.Defaults.URL else requestURL)) }) ∧
    ∃ pre post : Str, getRequestURL m requestURL baseURL =
      .ok (pre ++ url.URL.EscapedPath
        { b with
          Path := path.Clean (if b.Path = []
            then (if requestURL = [] then m.Defaults.URL else requestURL)
            else b.Path ++ ch '/' ::
              (if requestURL = [] then m.Defaults.URL else requestURL)) } ++ post) := by
  have h : getRequestURL m requestURL baseURL =
      .ok (url.URL.String
        { b with
          Path := path.Clean (if b.Path = []
            then (if requestURL = [] then m.Defaults.URL else requestURL)
            else b.Path ++ ch '/' ::
              (if requestURL = [] then m.Defaults.URL else requestURL)) }) := by
    rw [getRequestURL_cases, hparse]
    simp only [hrel, ne_eq, not_true_eq_false, if_false, hbase, path.Join_of_ne_nil _ _ hne]
  refine ⟨h, ?_⟩
  obtain ⟨pre, post, hs⟩ := url.String_path
    { b with
      Path := path.Clean (if b.Path = []
        then (if requestURL = [] then m.Defaults.URL else requestURL)
        else b.Path ++ ch '/' :: (if requestURL = [] then m.Defaults.URL else requestURL)) }
    hop
  exact ⟨pre, post, by rw [h, hs]⟩

/-- C18, on a sample: `./a/../b//c` on the base `http://api.example.com/v1` resolves to
`http://api.example.com/v1/b/c`. -/
theorem getRequestURL_clean_witness :
    getRequestURL (Create (V := Nat) { BaseURL := str "http://api.example.com/v1" } okClient)
      (str "./a/../b//c") [] = .ok (str "http://api.example.com/v1/b/c") :=
  (getRequestURL_clean (Create (V := Nat) { BaseURL := str "http://api.example.com/v1" } okClient)
    (str "./a/../b//c") [] { Path := str "./a/../b//c" }
    { Scheme := str "http", Host := str "api.example.com", Path := str "/v1" }
    (by decide!) rfl (by decide!) rfl (by decide)).1

/-- C19, as stated, fails: `mailto:a@b` and `localhost:8080/path` parse with a scheme and
without a host, and they are returned as they are, the base ignored, not joined onto it. -/
theorem getRequestURL_isAbs_counterexample :
    (url.Parse (str "mailto:a@b") = .ok { Scheme := str "mailto", Opaque := str "a@b" } ∧
      getRequestURL (Create (V := Nat) { BaseURL := str "http://api.example.com/v1" } okClient)
        (str "mailto:a@b") [] = .ok (str "mailto:a@b")) ∧
    (url.Parse (str "localhost:8080/path") =
        .ok { Scheme := str "localhost", Opaque := str "8080/path" } ∧
      getRequestURL (Create (V := Nat) { BaseURL := str "http://api.example.com/v1" } okClient)
        (str "localhost:8080/path") [] = .ok (str "localhost:8080/path")) := by
  decide!

/-- C19, amended: `getRequestURL` treats the effective URL as absolute, and ignores the
base, exactly when the parsed URL has a scheme, with or without a host: then the result
is that URL for every base, and otherwise the base is parsed and the URL is joined onto
it. -/
theorem getRequestURL_isAbs {V : Type} (m : MigMig V) (requestURL baseURL : Str) (u : url.URL)
    (hparse : url.Parse (if requestURL = [] then m.Defaults.URL else requestURL) = .ok u) :
    (u.Scheme ≠ [] →
      ∀ (m' : MigMig V) (baseURL' : Str), m'.Defaults.URL = m.Defaults.URL →
        getRequestURL m' requestURL baseURL' = .ok u.String) ∧
    (u.Scheme = [] →
      getRequestURL m requestURL baseURL =
        match url.Parse (if baseURL = [] then m.Defaults.BaseURL else baseURL) with
        | .error err => .error err
        | .ok b =>
          .ok (url.URL.String
            { b with
              Path := path.Join b.Path
                (if requestURL = [] then m.Defaults.URL else requestURL) })) := by
  constructor
  · intro hs m' b' hm'
    rw [getRequestURL_cases, hm', hparse]
    simp only [ne_eq, hs, not_false_eq_true, if_true]
  · intro hs
    rw [getRequestURL_cases, hparse]
    simp only [hs, ne_eq, not_true_eq_false, if_false]

/-- C19, on samples: `mailto:a@b` is returned as it is even with a malformed base, and
`users`, without a scheme, gets the error of the malformed base. -/
theorem getRequestURL_isAbs_witness :
    getRequestURL (New Nat okClient) (str "mailto:a@b") (str ":") = .ok (str "mailto:a@b") ∧
    getRequestURL (New Nat okClient) (str "users") (str ":") =
      .error (.urlError (str ":") "missing protocol scheme") :=
  ⟨(getRequestURL_isAbs (New Nat okClient) (str "mailto:a@b") (str ":")
      { Scheme := str "mailto", Opaque := str "a@b" } (by decide!)).1 (by decide) _ _ rfl,
   (getRequestURL_isAbs (New Nat okClient) (str "users") (str ":")
      { Path := str "users" } (by decide!)).2 rfl⟩

/-! ## Orchestration -/

/-- C2: `Request` runs the stages method, URL, body in this order and returns the error
of the first one that fails, and then nothing is handed to `Client.Do`; with no per-call
and no default method the error is `errMethodMissing`, whatever the other fields are. -/
theorem Request_fail_fast {V : Type} (marshal : Marshal V) (m : MigMig V) (c : Config V) :
    (∀ e, getMethod m c.Method = .error e → Request marshal m c = [⟨.error e, []⟩]) ∧
    (∀ method e, getMethod m c.Method = .ok method →
      getRequestURL m c.URL c.BaseURL = .error e → Request marshal m c = [⟨.error e, []⟩]) ∧
    (∀ method u e, getMethod m c.Method = .ok method →
      getRequestURL m c.URL c.BaseURL = .ok u →
      (getRequestBody marshal m c.Body method).err = some e →
      Request marshal m c = [⟨.error e, []⟩]) ∧
    (c.Method = [] → m.Defaults.Method = [] →
      Request marshal m c = [⟨.error .errMethodMissing, []⟩]) := by
  refine ⟨?_, ?_, ?_, ?_⟩
  · intro e h
    simp only [Request, h]
  · intro method e h1 h2
    simp only [Request, h1, h2]
  · intro method u e h1 h2 h3
    simp only [Request, h1, h2, h3]
  · intro h1 h2
    have h : getMethod m c.Method = .error .errMethodMissing := by
      simp [getMethod, h1, h2]
    simp only [Request, h]

/-- C2, on a sample input: no method, a malformed URL and a body that cannot be
serialized give `errMethodMissing` and nothing is sent. -/
theorem Request_fail_fast_witness :
    Request (V := Nat) (fun _ => .error (.jsonError "unsupported type"))
      (Create {} okClient)
      { URL := str "http://a b.com/%zz", BaseURL := str ":", Body := [(str "k", 0)] } =
      [⟨.error .errMethodMissing, []⟩] :=
  (Request_fail_fast _ _ _).2.2.2 rfl rfl

/-! ## Determinism -/

/-- C12, as stated, fails: with the per-call headers `x-a: 1` and `X-A: 2`, which are
stored under the one key `X-A`, the request that is sent carries `X-A: 2` or `X-A: 1`,
according to the order in which the merged header map is visited. -/
theorem Request_deterministic_counterexample :
    (Request sampleMarshal (New Nat okClient)
      { Method := str "GET", URL := str "http://a.com/x",
        Headers := [(str "x-a", str "1"), (str "X-A", str "2")] }).map
      (fun o => o.sent.map fun r => http.Header.Get r.Header (str "X-A")) =
      [[str "2"], [str "1"]] := by
  decide!

/-- C12, amended: for the same defaults and the same per-call configuration, any two runs
of `Request` either both stop with the same error before a request is made, or hand to the
transport requests with the same method, the same URL with its query string, the same body
and the same header mapping, whatever the orders in which the merged maps are visited,
provided that no two keys of the merged header map have the same canonical MIME form. -/
theorem Request_deterministic {V : Type} (marshal : Marshal V) (m : MigMig V) (c : Config V)
    (hcol : ∀ kv ∈ mergeMaps m.Defaults.Headers c.Headers,
      ∀ kv' ∈ mergeMaps m.Defaults.Headers c.Headers,
      http.CanonicalMIMEHeaderKey kv.1 = http.CanonicalMIMEHeaderKey kv'.1 → kv.1 = kv'.1) :
    Request marshal m c ≠ [] ∧
    ∀ o1 ∈ Request marshal m c, ∀ o2 ∈ Request marshal m c,
      (o1.sent = [] ∧ o2 = o1) ∨
      ∃ r1 r2, o1.sent = [r1] ∧ o2.sent = [r2] ∧ r1.Method = r2.Method ∧ r1.URL = r2.URL ∧
        r1.Body = r2.Body ∧ r1.Host = r2.Host ∧
        ∀ k, GoMap.get r1.Header k = GoMap.get r2.Header k := by
  unfold Request
  cases hm : getMethod m c.Method with
  | error e =>
    refine ⟨by simp, ?_⟩
    intro o1 h1 o2 h2
    simp only [List.mem_singleton] at h1 h2
    exact Or.inl ⟨by rw [h1], by rw [h1, h2]⟩
  | ok method =>
    cases hu : getRequestURL m c.URL c.BaseURL with
    | error e =>
      refine ⟨by simp, ?_⟩
      intro o1 h1 o2 h2
      simp only [List.mem_singleton] at h1 h2
      exact Or.inl ⟨by rw [h1], by rw [h1, h2]⟩
    | ok requestURL =>
      cases hb : (getRequestBody marshal m c.Body method).err with
      | some e =>
        refine ⟨by simp [hb], ?_⟩
        intro o1 h1 o2 h2
        simp only [hb, List.mem_singleton] at h1 h2
        exact Or.inl ⟨by rw [h1], by rw [h1, h2]⟩
      | none =>
        cases hr : http.NewRequest method requestURL
            (getRequestBody marshal m c.Body method).reader with
        | error e =>
          refine ⟨by simp [hb, hr], ?_⟩
          intro o1 h1 o2 h2
          simp only [hb, hr, List.mem_singleton] at h1 h2
          exact Or.inl ⟨by rw [h1], by rw [h1, h2]⟩
        | ok req =>
          constructor
          · simp only [hb, hr]
            obtain ⟨q, hq⟩ := List.exists_mem_of_ne_nil _ (setQueryParams_ne_nil m req c.QueryParams)
            obtain ⟨h, hh⟩ := List.exists_mem_of_ne_nil _ (setHeaders_ne_nil m q c.Headers)
            intro hnil
            have : (⟨m.Client.Do h, [h]⟩ : Outcome) ∈
                (setQueryParams m req c.QueryParams).flatMap fun req1 =>
                  (setHeaders m req1 c.Headers).map fun req2 => ⟨m.Client.Do req2, [req2]⟩ :=
              List.mem_flatMap.2 ⟨q, hq, List.mem_map.2 ⟨h, hh, rfl⟩⟩
            rw [hnil] at this
            exact List.not_mem_nil _ this
          · intro o1 h1 o2 h2
            simp only [hb, hr, List.mem_flatMap, List.mem_map] at h1 h2
            obtain ⟨q1, hq1, r1, hr1, rfl⟩ := h1
            obtain ⟨q2, hq2, r2, hr2, rfl⟩ := h2
            have hq : q2 = q1 := setQueryParams_unique m req c.QueryParams q2 q1 hq2 hq1
            subst hq
            obtain ⟨e1, e2, e3, e4, e5⟩ := setHeaders_congr m q2 c.Headers hcol r1 r2 hr1 hr2
            exact Or.inr ⟨r1, r2, rfl, rfl, e1, e2, e3, e4, e5⟩

/-- C12, on a sample: with distinct header keys the two iteration orders of the merged
header map give requests with the same header values. -/
theorem Request_deterministic_witness :
    (∀ kv ∈ mergeMaps [] [(str "X", str "1"), (str "Y", str "2")],
      ∀ kv' ∈ mergeMaps [] [(str "X", str "1"), (str "Y", str "2")],
      http.CanonicalMIMEHeaderKey kv.1 = http.CanonicalMIMEHeaderKey kv'.1 → kv.1 = kv'.1) ∧
    Request sampleMarshal (New Nat okClient)
      { Method := str "GET", URL := str "http://a.com/x",
        Headers := [(str "X", str "1"), (str "Y", str "2")] } ≠ [] :=
  ⟨by decide!,
   (Request_deterministic sampleMarshal (New Nat okClient)
      { Method := str "GET", URL := str "http://a.com/x",
        Headers := [(str "X", str "1"), (str "Y", str "2")] } (by decide!)).1⟩

/-! ## Verb methods -/

/-- C14: each of the seven verb methods returns what `Request` returns on the given
configuration (an empty one for nil) with `Method` set to the verb and `URL` set to the
given URL; the method stage succeeds on each of the seven verbs whatever method the
configuration or the defaults carry, and no outcome of a verb method is `errMethodMissing`
or `errInvalidMethod`, given that the serializer and the transport do not return these two
errors of the package. -/
theorem verbs_delegate {V : Type} (marshal : Marshal V) (m : MigMig V) (u : Str)
    (c : Option (Config V))
    (hmarshal : ∀ b e, marshal b = .error e → e ≠ .errMethodMissing ∧ e ≠ .errInvalidMethod)
    (hclient : ∀ r e, m.Client.Do r = .error e → e ≠ .errMethodMissing ∧ e ≠ .errInvalidMethod) :
    ((Get marshal m u c).1 = Request marshal m { (c.getD {}) with URL := u, Method := str "GET" } ∧
      (Post marshal m u c).1 =
        Request marshal m { (c.getD {}) with URL := u, Method := str "POST" } ∧
      (Delete marshal m u c).1 =
        Request marshal m { (c.getD {}) with URL := u, Method := str "DELETE" } ∧
      (Patch marshal m u c).1 =
        Request marshal m { (c.getD {}) with URL := u, Method := str "PATCH" } ∧
      (Put marshal m u c).1 =
        Request marshal m { (c.getD {}) with URL := u, Method := str "PUT" } ∧
      (Options marshal m u c).1 =
        Request marshal m { (c.getD {}) with URL := u, Method := str "OPTIONS" } ∧
      (Head marshal m u c).1 =
        Request marshal m { (c.getD {}) with URL := u, Method := str "HEAD" }) ∧
    (getMethod m (str "GET") = .ok (str "GET") ∧
      getMethod m (str "POST") = .ok (str "POST") ∧
      getMethod m (str "DELETE") = .ok (str "DELETE") ∧
      getMethod m (str "PATCH") = .ok (str "PATCH") ∧
      getMethod m (str "PUT") = .ok (str "PUT") ∧
      getMethod m (str "OPTIONS") = .ok (str "OPTIONS") ∧
      getMethod m (str "HEAD") = .ok (str "HEAD")) ∧
    ((∀ o ∈ (Get marshal m u c).1,
        o.result ≠ .error .errMethodMissing ∧ o.result ≠ .error .errInvalidMethod) ∧
      (∀ o ∈ (Post marshal m u c).1,
        o.result ≠ .error .errMethodMissing ∧ o.result ≠ .error .errInvalidMethod) ∧
      (∀ o ∈ (Delete marshal m u c).1,
        o.result ≠ .error .errMethodMissing ∧ o.result ≠ .error .errInvalidMethod) ∧
      (∀ o ∈ (Patch marshal m u c).1,
        o.result ≠ .error .errMethodMissing ∧ o.result ≠ .error .errInvalidMethod) ∧
      (∀ o ∈ (Put marshal m u c).1,
        o.result ≠ .error .errMethodMissing ∧ o.result ≠ .error .errInvalidMethod) ∧
      (∀ o ∈ (Options marshal m u c).1,
        o.result ≠ .error .errMethodMissing ∧ o.result ≠ .error .errInvalidMethod) ∧
      (∀ o ∈ (Head marshal m u c).1,
        o.result ≠ .error .errMethodMissing ∧ o.result ≠ .error .errInvalidMethod)) := by
  have hGet : getMethod m (str "GET") = .ok (str "GET") := getMethod_of_mem m _ (by decide)
  have hPost : getMethod m (str "POST") = .ok (str "POST") := getMethod_of_mem m _ (by decide)
  have hDelete : getMethod m (str "DELETE") = .ok (str "DELETE") :=
    getMethod_of_mem m _ (by decide)
  have hPatch : getMethod m (str "PATCH") = .ok (str "PATCH") :=
    getMethod_of_mem m _ (by decide)
  have hPut : getMethod m (str "PUT") = .ok (str "PUT") := getMethod_of_mem m _ (by decide)
  have hOptions : getMethod m (str "OPTIONS") = .ok (str "OPTIONS") :=
    getMethod_of_mem m _ (by decide)
  have hHead : getMethod m (str "HEAD") = .ok (str "HEAD") := getMethod_of_mem m _ (by decide)
  exact ⟨⟨rfl, rfl, rfl, rfl, rfl, rfl, rfl⟩,
    ⟨hGet, hPost, hDelete, hPatch, hPut, hOptions, hHead⟩,
    ⟨verb_outcomes marshal m u c hmarshal hclient _ hGet,
     verb_outcomes marshal m u c hmarshal hclient _ hPost,
     verb_outcomes marshal m u c hmarshal hclient _ hDelete,
     verb_outcomes marshal m u c hmarshal hclient _ hPatch,
     verb_outcomes marshal m u c hmarshal hclient _ hPut,
     verb_outcomes marshal m u c hmarshal hclient _ hOptions,
     verb_outcomes marshal m u c hmarshal hclient _ hHead⟩⟩

/-- C14, on a sample: `Get` with a configuration whose method is `BOGUS`, on defaults
whose method is `BOGUS` too, is `Request` with the method `GET`, and none of its outcomes
is one of the two method errors. -/
theorem verbs_delegate_witness :
    (Get sampleMarshal (Create { Method := str "BOGUS" } okClient) (str "http://a.com/x")
      (some { Method := str "BOGUS" })).1 =
      Request sampleMarshal (Create { Method := str "BOGUS" } okClient)
        { URL := str "http://a.com/x", Method := str "GET" } ∧
    ∀ o ∈ (Get sampleMarshal (Create { Method := str "BOGUS" } okClient) (str "http://a.com/x")
        (some { Method := str "BOGUS" })).1,
      o.result ≠ .error .errMethodMissing ∧ o.result ≠ .error .errInvalidMethod :=
  ⟨(verbs_delegate sampleMarshal (Create { Method := str "BOGUS" } okClient)
      (str "http://a.com/x") (some { Method := str "BOGUS" })
      (fun _ _ h => by cases h) (fun _ _ h => by cases h)).1.1,
   (verbs_delegate sampleMarshal (Create { Method := str "BOGUS" } okClient)
      (str "http://a.com/x") (some { Method := str "BOGUS" })
      (fun _ _ h => by cases h) (fun _ _ h => by cases h)).2.2.1⟩

/-! ## What a call changes in memory -/

/-- C13: in a memory whose `Config` structs refer to maps in memory, `Request`, whether it
fails or succeeds and in whatever order the maps are visited, leaves the `Defaults` of the
client unchanged: every field of the struct, and the contents of the maps it refers to. So
do the stages `setQueryParams` and `setHeaders`, which assign only to a map they make; the
stages `getMethod`, `getRequestURL` and `getRequestBody` assign to local variables only. -/
theorem Request_frame {V : Type} (marshal : Marshal V) (mem : Memory V) (mr : ClientRef)
    (c : Nat) (hv : mem.Valid) :
    mem.Request marshal mr c ≠ [] ∧
    (∀ p ∈ mem.Request marshal mr c,
      p.2.cell mr.Defaults = mem.cell mr.Defaults ∧
      p.2.config mr.Defaults = mem.config mr.Defaults) ∧
    (∀ req queryParams, ∀ p ∈ mem.setQueryParams mr req queryParams,
      p.2.cell mr.Defaults = mem.cell mr.Defaults ∧
      p.2.config mr.Defaults = mem.config mr.Defaults) ∧
    (∀ req headers, ∀ p ∈ mem.setHeaders mr req headers,
      p.2.cell mr.Defaults = mem.cell mr.Defaults ∧
      p.2.config mr.Defaults = mem.config mr.Defaults) :=
  ⟨Memory.Request_ne_nil marshal mem mr c,
   fun p hp =>
     ⟨(Memory.Request_extends marshal mem mr c p hp).cell _,
      (Memory.Request_extends marshal mem mr c p hp).config hv _⟩,
   fun req q p hp =>
     ⟨(Memory.setQueryParams_extends mem mr req q p hp).cell _,
      (Memory.setQueryParams_extends mem mr req q p hp).config hv _⟩,
   fun req h p hp =>
     ⟨(Memory.setHeaders_extends mem mr req h p hp).cell _,
      (Memory.setHeaders_extends mem mr req h p hp).config hv _⟩⟩

/-- C13, on a sample: a call whose per-call `Config` shares its header map with the
defaults leaves the defaults as they were. -/
theorem Request_frame_witness :
    sampleMemory.Valid ∧
    ∀ p ∈ sampleMemory.Request sampleMarshal ⟨0, okClient⟩ 1,
      p.2.cell 0 = sampleMemory.cell 0 ∧ p.2.config 0 = sampleMemory.config 0 :=
  ⟨sampleMemory_valid,
   (Request_frame sampleMarshal sampleMemory ⟨0, okClient⟩ 1 sampleMemory_valid).2.1⟩

/-- C20: a verb method called with a pointer to a `Config` in memory assigns the given URL
(the empty string too) and the verb to the fields `URL` and `Method` of that struct, and
leaves its other fields, the contents of its maps and every other `Config` as they were;
`Request` leaves every field of the `Config` it is given as it was. -/
theorem verb_frame {V : Type} (method : Str) (marshal : Marshal V) (mem : Memory V)
    (mr : ClientRef) (u : Str) (a : Nat) (ha : a < mem.configs.length) (hv : mem.Valid) :
    Memory.verb method marshal mem mr u (some a) ≠ [] ∧
    (∀ p ∈ Memory.verb method marshal mem mr u (some a),
      p.2.cell a = { mem.cell a with URL := u, Method := method } ∧
      p.2.config a = { mem.config a with URL := u, Method := method } ∧
      ∀ b, b ≠ a → p.2.cell b = mem.cell b ∧ p.2.config b = mem.config b) ∧
    (∀ c, ∀ p ∈ mem.Request marshal mr c,
      p.2.cell c = mem.cell c ∧ p.2.config c = mem.config c) := by
  have hget : ∃ cell, mem.configs.get? a = some cell := by
    cases h : mem.configs.get? a with
    | none => exact absurd (List.get?_eq_none.1 h) (Nat.not_le.2 ha)
    | some cell => exact ⟨cell, rfl⟩
  obtain ⟨cell0, hcell0⟩ := hget
  have hv3 : ((mem.setURL a u).setMethod a method).Valid :=
    Memory.valid_updateAt _
      (Memory.valid_updateAt mem hv a (fun cell => { cell with URL := u }) (fun _ => ⟨rfl, rfl⟩))
      a (fun cell => { cell with Method := method }) (fun _ => ⟨rfl, rfl⟩)
  have hcellA : ∀ b, ((mem.setURL a u).setMethod a method).cell b =
      if b = a then { mem.cell a with URL := u, Method := method } else mem.cell b := by
    intro b
    simp only [Memory.cell, Memory.setURL, Memory.setMethod, get?_updateAt]
    by_cases hb : b = a
    · subst hb
      simp only [if_true, hcell0, Option.map_some', Option.getD_some]
    · simp only [if_neg hb]
  have hs : ∀ r, ((mem.setURL a u).setMethod a method).strMap r = mem.strMap r := fun _ => rfl
  have hbm : ∀ r, ((mem.setURL a u).setMethod a method).bodyMap r = mem.bodyMap r :=
    fun _ => rfl
  have hcfgA : ∀ b, ((mem.setURL a u).setMethod a method).config b =
      if b = a then { mem.config a with URL := u, Method := method } else mem.config b := by
    intro b
    by_cases hb : b = a
    · subst hb
      simp only [Memory.config, hcellA b, hs, hbm, if_true]
    · simp only [Memory.config, hcellA b, hs, hbm, if_neg hb]
  refine ⟨Memory.Request_ne_nil _ _ _ _, ?_, ?_⟩
  · intro p hp
    have he : ((mem.setURL a u).setMethod a method).Extends p.2 :=
      Memory.Request_extends marshal _ mr a p hp
    have hc := he.cell
    have hcfg := he.config hv3
    refine ⟨?_, ?_, ?_⟩
    · rw [hc a, hcellA a, if_pos rfl]
    · rw [hcfg a, hcfgA a, if_pos rfl]
    · intro b hb
      exact ⟨by rw [hc b, hcellA b, if_neg hb], by rw [hcfg b, hcfgA b, if_neg hb]⟩
  · intro c p hp
    exact ⟨(Memory.Request_extends marshal mem mr c p hp).cell _,
      (Memory.Request_extends marshal mem mr c p hp).config hv _⟩

/-- C20, on a sample: `Get` with the empty URL on the `Config` at address 1 empties its
`URL`, sets its `Method` and keeps the addresses of its maps. -/
theorem verb_frame_witness :
    (1 < sampleMemory.configs.length ∧ sampleMemory.Valid) ∧
    ∀ p ∈ Memory.verb (str "GET") sampleMarshal sampleMemory ⟨0, okClient⟩ [] (some 1),
      p.2.cell 1 = { URL := [], Method := str "GET", Headers := some 0, QueryParams := some 2 } :=
  ⟨⟨by decide, sampleMemory_valid⟩, fun p hp =>
    ((verb_frame (str "GET") sampleMarshal sampleMemory ⟨0, okClient⟩ [] 1 (by decide)
      sampleMemory_valid).2.1 p hp).1⟩

end migmig
